import Mathlib

set_option maxHeartbeats 1000000

/-!
Verification of the trade/alert/order subsystem of the whatsapp-task-bot
repository (src/tasks/trade: order.service.js, the alert manager, and the
/trade task handlers), as a shallow embedding in Lean.

Modelling conventions:
* JavaScript numbers are modelled as rationals (ℚ); `Math.floor` is `Int.floor`
  and `Math.round` is `jsRound` (floor of x + 1/2, matching JS round-half-up).
* The JS `Map` objects (alerts, pendingFills, priceHistory) are modelled as
  association lists with `Map.set` / `Map.get` / `Map.delete` semantics; a JS
  Map never holds two entries with the same key, which here is an invariant
  (`List.Nodup` on the keys) rather than a structural guarantee.
* The registry key string `SYMBOL:userId` is modelled as the pair
  (symbol, userId), which carries the same information.
* Asynchronous broker / quote / notification calls are modelled by oracles in
  an `Env` record, and the observable actions of a tick are collected in a
  list of `Ev` events, in program order.
-/

namespace TradeBot

/-- Registry key: uppercased symbol paired with the user id (the source builds
the string `SYMBOL:userId`; the pair carries the same information). -/
abbrev Key := String × String

/-- One entry of the rolling per-symbol price buffer (source: `_recordPrice`
pushes `{ price, ts: Date.now() }`). -/
structure Obs where
  price : ℚ
  ts : ℕ
deriving Repr, DecidableEq

/-- A watch plan as stored by `addAlert` (symbol uppercased on insert).
Exactly one of `budget` / `fixedQty` is set by the parser; the model keeps
both optional, as the source object does (`budget ?? null`, `qty ?? null`).
The source field `qty` is called `fixedQty` here to avoid clashing with
computed quantities. -/
structure Plan where
  symbol : String
  userId : String
  buyLow : ℚ
  buyHigh : ℚ
  takeProfit : ℚ
  stopLoss : ℚ
  budget : Option ℚ
  fixedQty : Option ℤ
deriving Repr, DecidableEq

/-- A pending BUY fill as stored by `addPendingFill`. -/
structure Fill where
  symbol : String
  userId : String
  buyOrderId : ℕ
  accountIdKey : String
  qty : ℤ
  takeProfit : ℚ
  stopLoss : ℚ
deriving Repr, DecidableEq

section AList

variable {κ α : Type} [DecidableEq κ]

/-- `Map.set`: replace the value at an existing key in place, else append
(JS Map preserves insertion order and keeps the original position on update). -/
def setKV (k : κ) (v : α) : List (κ × α) → List (κ × α)
  | [] => [(k, v)]
  | (k0, v0) :: rest => if k0 = k then (k, v) :: rest else (k0, v0) :: setKV k v rest

/-- `Map.get`: first value stored at the key, if any. -/
def getKV (k : κ) (l : List (κ × α)) : Option α :=
  (l.find? (fun p => decide (p.1 = k))).map (fun p => p.2)

/-- `Map.delete`: drop every entry at the key (a JS Map holds at most one). -/
def delKV (k : κ) (l : List (κ × α)) : List (κ × α) :=
  l.filter (fun p => decide (p.1 ≠ k))

/-- `Map.has`. -/
def hasKV (k : κ) (l : List (κ × α)) : Bool :=
  (getKV k l).isSome

end AList

/-- The mutable module-level state of the alert manager: the `alerts` map, the
`pendingFills` map, the `priceHistory` map, and whether a gateway `sendFn`
has been configured by `initAlertMonitor`. -/
structure TradeState where
  alerts : List (Key × Plan)
  pendingFills : List (Key × Fill)
  priceHistory : List (String × List Obs)
  hasSendFn : Bool
deriving Repr, DecidableEq

/-- Observable actions of the alert manager, in program order. -/
inductive Ev where
  | fetch (symbol : String)
  | recordObs (symbol : String) (price : ℚ)
  | warnLogged (symbol : String)
  | alertRemoved (k : Key)
  | taskSetup (userId : String)
  | buyAlertSent (userId : String) (symbol : String) (qty : ℤ) (triggerPrice : ℚ)
  | pendingDeleted (k : Key)
  | exitOrdersCall (symbol : String) (userId : String) (qty : ℤ) (tp : ℚ) (sl : ℚ)
  | fillSuccessSent (userId : String)
  | manualParamsSent (userId : String) (symbol : String) (qty : ℤ) (tp : ℚ) (sl : ℚ)
  | abortSent (userId : String) (symbol : String) (status : String)
deriving Repr, DecidableEq

/-- Result of one `getOrderStatus` poll: the call can throw (caught by the
monitor), or return the `orderStatus` string, or `null` when the order id is
not in the recent order list. -/
inductive PollResult where
  | threw
  | got (status : Option String)
deriving Repr, DecidableEq

/-- Oracles for the external world during one tick: quote fetches (`none`
models both a thrown fetch and a `quote.error / price == null` reply — the
source skips the symbol in both cases), order-status polls (keyed by
accountIdKey and buyOrderId), whether `placeExitOrders` succeeds for a given
(symbol, userId), whether a user has an active task, and the clock. -/
structure Env where
  quotes : String → Option ℚ
  poll : String → ℕ → PollResult
  exitOK : String → String → Bool
  hasActiveTask : String → Bool
  now : ℕ

/-- Model of JS `String.prototype.toUpperCase` (ASCII case mapping applied
character by character). -/
def jsToUpper (s : String) : String :=
  ⟨s.data.map Char.toUpper⟩

/-- Model of JS `String.prototype.toLowerCase`. -/
def jsToLower (s : String) : String :=
  ⟨s.data.map Char.toLower⟩

/-- Model of JS `String.prototype.trim`: strip whitespace from both ends. -/
def jsTrim (s : String) : String :=
  ⟨((s.data.dropWhile Char.isWhitespace).reverse.dropWhile Char.isWhitespace).reverse⟩

/-- Source constant `HISTORY_MAX = 30`. -/
def HISTORY_MAX : ℕ := 30

/-- Source: `calcQty(budget, price) = Math.floor(budget / price)`. -/
def calcQty (budget price : ℚ) : ℤ :=
  Int.floor (budget / price)

/-- Source: `addAlert(plan)` — key `SYMBOL:userId`, symbol uppercased,
`Map.set` overwrites any prior plan at the key. -/
def addAlert (st : TradeState) (p : Plan) : TradeState :=
  let stored : Plan := { p with symbol := jsToUpper p.symbol }
  { st with alerts := setKV (jsToUpper p.symbol, p.userId) stored st.alerts }

/-- Source: `_pruneHistory(symbol)` — drops the symbol's history unless some
remaining alert still watches the symbol (pending fills are not consulted). -/
def pruneHistory (st : TradeState) (symbol : String) : TradeState :=
  if st.alerts.any (fun kp => decide (kp.2.symbol = symbol)) then st
  else { st with priceHistory := delKV symbol st.priceHistory }

/-- Source: `removeAlert(symbol, userId)` — delete if present, then prune the
symbol's history; returns whether an alert existed. -/
def removeAlert (st : TradeState) (symbol userId : String) : TradeState × Bool :=
  let key : Key := (jsToUpper symbol, userId)
  if hasKV key st.alerts then
    (pruneHistory { st with alerts := delKV key st.alerts } (jsToUpper symbol), true)
  else (st, false)

/-- Source: `addPendingFill({...})` — key `SYMBOL:userId`, symbol uppercased. -/
def addPendingFill (st : TradeState) (f : Fill) : TradeState :=
  let stored : Fill := { f with symbol := jsToUpper f.symbol }
  { st with pendingFills := setKV (jsToUpper f.symbol, f.userId) stored st.pendingFills }

/-- Source: `removePendingFill(symbol, userId)`. -/
def removePendingFill (st : TradeState) (symbol userId : String) : TradeState × Bool :=
  let key : Key := (jsToUpper symbol, userId)
  if hasKV key st.pendingFills then
    ({ st with pendingFills := delKV key st.pendingFills }, true)
  else (st, false)

/-- Source: `_recordPrice(symbol, price)` — append `{price, ts}` and shift the
oldest entry out when the buffer exceeds `HISTORY_MAX`. -/
def recordPrice (st : TradeState) (symbol : String) (price : ℚ) (now : ℕ) : TradeState :=
  let buf := (getKV symbol st.priceHistory).getD []
  let buf1 := buf ++ [⟨price, now⟩]
  let buf2 := if buf1.length > HISTORY_MAX then buf1.drop 1 else buf1
  { st with priceHistory := setKV symbol buf2 st.priceHistory }

-- ── Trend summary ────────────────────────────────────────────────────────────

/-- `Math.min(...prices)` over a nonempty list (0 on the unreachable empty case). -/
def minOf : List ℚ → ℚ
  | [] => 0
  | x :: xs => xs.foldl min x

/-- `Math.max(...prices)` over a nonempty list (0 on the unreachable empty case). -/
def maxOf : List ℚ → ℚ
  | [] => 0
  | x :: xs => xs.foldl max x

/-- JS `Math.round`: round half towards positive infinity. -/
def jsRound (q : ℚ) : ℤ :=
  Int.floor (q + 1/2)

/-- The unicode intensity blocks used for the sparkline. -/
def sparkBlocks : List String :=
  ["▁", "▂", "▃", "▄", "▅", "▆", "▇", "█"]

/-- Source (`_buildTrendSummary`, sparkline part): sample the last ≤ 10 prices,
bucket each between the sample's own min and max into the 8 blocks
(`blocks[3]` when the sample is flat). -/
def sparklineOf (prices : List ℚ) : String :=
  let sample := prices.drop (prices.length - 10)
  let lo := minOf sample
  let hi := maxOf sample
  String.join (sample.map (fun p =>
    if hi = lo then "▄"
    else (sparkBlocks.getD (jsRound ((p - lo) / (hi - lo) * 7)).toNat "▁")))

/-- The computed components of the trend summary message. -/
structure TrendSummary where
  totalPct : ℚ
  minPrice : ℚ
  maxPrice : ℚ
  durationMin : ℤ
  direction : String
  sparkline : String
  obsCount : ℕ
deriving Repr, DecidableEq

/-- Source: `_buildTrendSummary(symbol, currentPrice)` reading the buffer
`buf`; `none` when fewer than 2 observations. The percentage change runs from
the oldest buffered price to the `currentPrice` argument. -/
def buildTrendSummary (now : ℕ) (buf : List Obs) (currentPrice : ℚ) : Option TrendSummary :=
  if buf.length < 2 then none
  else
    let prices := buf.map (fun o => o.price)
    let oldest := prices.headD 0
    let newest := currentPrice
    let totalPct := ((newest - oldest) / oldest) * 100
    let direction :=
      if totalPct ≤ -(1/2) then "↘ trending down"
      else if totalPct ≥ 1/2 then "↗ trending up"
      else "↔ ranging"
    some
      { totalPct := totalPct
        minPrice := minOf prices
        maxPrice := maxOf prices
        durationMin := jsRound (((now : ℚ) - (((buf.headD ⟨0, 0⟩).ts : ℕ) : ℚ)) / 60000)
        direction := direction
        sparkline := sparklineOf prices
        obsCount := buf.length }

-- ── Trigger evaluator (`_checkPrices` / `_fireAlert`) ────────────────────────

/-- Source (`_fireAlert`, line computing `qty`):
`fixedQty != null ? fixedQty : Math.floor(budget / triggerPrice)`
(a null budget is read as 0 here; the parser guarantees one of the two). -/
def fireQty (p : Plan) (triggerPrice : ℚ) : ℤ :=
  match p.fixedQty with
  | some q => q
  | none => Int.floor ((p.budget.getD 0) / triggerPrice)

/-- The observable actions of `_fireAlert(plan, triggerPrice)`, in program
order: remove the alert first, then set up the confirmation task when the
user is idle, then send the notification if a send function is configured. -/
def fireEvents (env : Env) (send : Bool) (p : Plan) (triggerPrice : ℚ) : List Ev :=
  [Ev.alertRemoved (jsToUpper p.symbol, p.userId)]
    ++ (if env.hasActiveTask p.userId then [] else [Ev.taskSetup p.userId])
    ++ (if send then [Ev.buyAlertSent p.userId p.symbol (fireQty p triggerPrice) triggerPrice]
        else [])

/-- Source: `_fireAlert(plan, triggerPrice)` — snapshot the trend (unused by
the state transition), remove the alert (pruning history when the symbol is
no longer watched), then notify. -/
def fireAlert (env : Env) (st : TradeState) (p : Plan) (triggerPrice : ℚ) :
    TradeState × List Ev :=
  ((removeAlert st p.symbol p.userId).1, fireEvents env st.hasSendFn p triggerPrice)

/-- Zone test from `_checkPrices`: `price >= plan.buyLow && price <= plan.buyHigh`. -/
def inZone (p : Plan) (price : ℚ) : Prop :=
  p.buyLow ≤ price ∧ price ≤ p.buyHigh

instance (p : Plan) (price : ℚ) : Decidable (inZone p price) := by
  unfold inZone; infer_instance

/-- The events contributed by one plan of a symbol group, given the fetched
price: fire if the price is in the buy zone, else nothing. -/
def eventsOfPlan (env : Env) (send : Bool) (price : ℚ) (p : Plan) : List Ev :=
  if inZone p price then fireEvents env send p price else []

/-- The inner loop of `_checkPrices` over the plans of one symbol group. -/
def processPlans (env : Env) (price : ℚ) : TradeState → List Plan → TradeState × List Ev
  | st, [] => (st, [])
  | st, p :: ps =>
    if inZone p price then
      let st1 := (fireAlert env st p price).1
      let rest := processPlans env price st1 ps
      (rest.1, fireEvents env st.hasSendFn p price ++ rest.2)
    else processPlans env price st ps

/-- One iteration of the `for (const [symbol, plans] of bySymbol)` loop of
`_checkPrices`: fetch the quote (skip the symbol with a warning on failure or
missing price), record the price, then evaluate every plan of the group. -/
def processSymbol (env : Env) (st : TradeState) (symbol : String) (plans : List Plan) :
    TradeState × List Ev :=
  match env.quotes symbol with
  | none => (st, [Ev.fetch symbol, Ev.warnLogged symbol])
  | some price =>
    let st1 := recordPrice st symbol price env.now
    let rest := processPlans env price st1 plans
    (rest.1, [Ev.fetch symbol, Ev.recordObs symbol price] ++ rest.2)

/-- `insertGroup` models one step of building the `bySymbol` map: append the
plan to its symbol's group, or start a new group at the end. -/
def insertGroup : List (String × List Plan) → String → Plan → List (String × List Plan)
  | [], s, p => [(s, [p])]
  | (s0, ps) :: rest, s, p =>
    if s0 = s then (s0, ps ++ [p]) :: rest else (s0, ps) :: insertGroup rest s p

/-- Source (`_checkPrices`): group the alert snapshot by symbol, preserving
first-appearance order of symbols and plan order within a group. -/
def groupBySymbol (alerts : List (Key × Plan)) : List (String × List Plan) :=
  alerts.foldl (fun acc kp => insertGroup acc kp.2.symbol kp.2) []

/-- The outer loop of `_checkPrices` over the symbol groups. -/
def processGroups (env : Env) : TradeState → List (String × List Plan) → TradeState × List Ev
  | st, [] => (st, [])
  | st, (s, ps) :: rest =>
    let one := processSymbol env st s ps
    let more := processGroups env one.1 rest
    (more.1, one.2 ++ more.2)

/-- Source: `_checkPrices()` — early return when no alerts, else process every
symbol group of the snapshot. -/
def checkPrices (env : Env) (st : TradeState) : TradeState × List Ev :=
  if st.alerts.isEmpty then (st, [])
  else processGroups env st (groupBySymbol st.alerts)

-- ── Fill monitor (`_checkFills` / `_placeFillExits` / `forceTriggerFill`) ────

/-- The observable actions of `_placeFillExits(fill)`: call `placeExitOrders`
(TP limit SELL + SL stop SELL); on success notify the user when a send
function exists; when the call throws, notify with explicit manual order
parameters — but only when a send function exists. The pending-fills registry
is not touched here (the caller already deleted the entry). -/
def placeFillExits (env : Env) (send : Bool) (f : Fill) : List Ev :=
  Ev.exitOrdersCall f.symbol f.userId f.qty f.takeProfit f.stopLoss ::
    (if env.exitOK f.symbol f.userId then
      (if send then [Ev.fillSuccessSent f.userId] else [])
    else
      (if send then [Ev.manualParamsSent f.userId f.symbol f.qty f.takeProfit f.stopLoss]
       else []))

/-- The state update and events of one iteration of the `_checkFills` loop for
entry `(k, f)`: a thrown poll is caught and logged; `EXECUTED` deletes the
entry and then places the exits; `CANCELLED`/`EXPIRED` deletes the entry and
notifies; any other status (including a null status) leaves the entry for the
next tick. -/
def fillStep (env : Env) (st : TradeState) (k : Key) (f : Fill) : TradeState × List Ev :=
  match env.poll f.accountIdKey f.buyOrderId with
  | PollResult.threw => (st, [Ev.warnLogged f.symbol])
  | PollResult.got s =>
    if s = some "EXECUTED" then
      ({ st with pendingFills := delKV k st.pendingFills },
        Ev.pendingDeleted k :: placeFillExits env st.hasSendFn f)
    else if s = some "CANCELLED" ∨ s = some "EXPIRED" then
      ({ st with pendingFills := delKV k st.pendingFills },
        Ev.pendingDeleted k ::
          (if st.hasSendFn then [Ev.abortSent f.userId f.symbol (s.getD "")] else []))
    else (st, [])

/-- The `_checkFills` loop over the snapshot of pending fills (the JS Map
iteration only ever deletes the entry currently being visited, so iterating
the initial snapshot is equivalent). -/
def processFills (env : Env) : TradeState → List (Key × Fill) → TradeState × List Ev
  | st, [] => (st, [])
  | st, (k, f) :: rest =>
    let one := fillStep env st k f
    let more := processFills env one.1 rest
    (more.1, one.2 ++ more.2)

/-- Source: `_checkFills()` — early return when no pending fills, else poll
every entry independently. -/
def checkFills (env : Env) (st : TradeState) : TradeState × List Ev :=
  if st.pendingFills.isEmpty then (st, [])
  else processFills env st st.pendingFills

/-- Source: `forceTriggerFill(symbol, userId)` — sandbox helper: look up the
pending fill, delete it, and place the exits with no status check at all. -/
def forceTriggerFill (env : Env) (st : TradeState) (symbol userId : String) :
    (TradeState × List Ev) × Bool :=
  let key : Key := (jsToUpper symbol, userId)
  match getKV key st.pendingFills with
  | none => ((st, []), false)
  | some f =>
    let st1 := { st with pendingFills := delKV key st.pendingFills }
    ((st1, Ev.pendingDeleted key :: placeFillExits env st1.hasSendFn f), true)

-- ── /trade task handlers (`handleParams` / `handleConfirmation`) ─────────────

/-- A parsed trade plan, as produced by `parsePlan` (the regex guarantees
exactly one of `budget` / `fixedQty` is non-null). -/
structure ParsedPlan where
  buyLow : ℚ
  buyHigh : ℚ
  takeProfit : ℚ
  stopLoss : ℚ
  budget : Option ℚ
  fixedQty : Option ℤ
deriving Repr, DecidableEq

/-- The reply outcome of `handleParams`. -/
inductive ParamsOutcome where
  | rejectedLowHigh
  | rejectedTakeProfit
  | rejectedStopLoss
  | rejectedBudget
  | rejectedQty
  | accepted (estQty : ℤ)
deriving Repr, DecidableEq

/-- Bool test for `budget != null && budget <= 0`. -/
def optNonposQ : Option ℚ → Bool
  | none => false
  | some b => decide (b ≤ 0)

/-- Bool test for `fixedQty != null && fixedQty <= 0`. -/
def optNonposZ : Option ℤ → Bool
  | none => false
  | some q => decide (q ≤ 0)

/-- Source: `handleParams(ctx, text, data)` after a successful parse — the
validation ladder, then `addAlert`; every rejection replies and returns
without touching any state. -/
def handleParams (st : TradeState) (symbol userId : String) (p : ParsedPlan) :
    TradeState × ParamsOutcome :=
  if p.buyLow ≥ p.buyHigh then (st, ParamsOutcome.rejectedLowHigh)
  else if p.takeProfit ≤ p.buyHigh then (st, ParamsOutcome.rejectedTakeProfit)
  else if p.stopLoss ≥ p.buyLow then (st, ParamsOutcome.rejectedStopLoss)
  else if optNonposQ p.budget then (st, ParamsOutcome.rejectedBudget)
  else if optNonposZ p.fixedQty then (st, ParamsOutcome.rejectedQty)
  else
    let midpoint := (p.buyLow + p.buyHigh) / 2
    let estQty :=
      match p.fixedQty with
      | some q => q
      | none => calcQty (p.budget.getD 0) midpoint
    let plan : Plan :=
      { symbol := symbol, userId := userId, buyLow := p.buyLow, buyHigh := p.buyHigh
        takeProfit := p.takeProfit, stopLoss := p.stopLoss
        budget := p.budget, fixedQty := p.fixedQty }
    (addAlert st plan, ParamsOutcome.accepted estQty)

/-- The task data stored by `_fireAlert` for the confirmation step (the source
field `qty` holds the plan's fixed quantity). -/
structure TaskData where
  symbol : String
  triggerPrice : ℚ
  takeProfit : ℚ
  stopLoss : ℚ
  budget : Option ℚ
  fixedQty : Option ℤ
deriving Repr, DecidableEq

/-- The outcome of `handleConfirmation` up to the `placeBuyOrder` call:
`buySubmitted` records that a BUY order submission was started. -/
inductive ConfirmOutcome where
  | dismissed
  | reprompted
  | rejectedZeroQty (qty : ℤ)
  | buySubmitted (symbol : String) (qty : ℤ) (price : ℚ)
deriving Repr, DecidableEq

/-- Source (`handleConfirmation`, quantity line):
`fixedQty != null ? fixedQty : calcQty(budget, triggerPrice)`. -/
def confirmQty (d : TaskData) : ℤ :=
  match d.fixedQty with
  | some q => q
  | none => calcQty (d.budget.getD 0) d.triggerPrice

/-- Source: `handleConfirmation(ctx, text, data)` — `cancel` dismisses,
anything but `confirm` re-prompts, a non-positive computed quantity rejects
without submitting, otherwise the BUY submission starts. -/
def handleConfirmation (text : String) (d : TaskData) : ConfirmOutcome :=
  if jsTrim (jsToLower text) = "cancel" then ConfirmOutcome.dismissed
  else if jsTrim (jsToLower text) ≠ "confirm" then ConfirmOutcome.reprompted
  else if confirmQty d ≤ 0 then ConfirmOutcome.rejectedZeroQty (confirmQty d)
  else ConfirmOutcome.buySubmitted d.symbol (confirmQty d) d.triggerPrice

-- ── Order pipeline (`previewThenPlace` / `placeBuyOrder` / `_verifyOrders`) ──

/-- `OrderDetail[0].Instrument[0]` of a broker order, with every field
optional as in the JSON. -/
structure BrokerInstrument where
  orderAction : Option String
  orderedQuantity : Option ℤ
deriving Repr, DecidableEq

/-- `OrderDetail[0]` of a broker order. -/
structure BrokerDetail where
  priceType : Option String
  limitPrice : Option ℚ
  stopPrice : Option ℚ
  instruments : List BrokerInstrument
deriving Repr, DecidableEq

/-- A broker order as returned by `getOrders`. -/
structure BrokerOrder where
  orderId : ℕ
  orderStatus : Option String
  details : List BrokerDetail
deriving Repr, DecidableEq

/-- One entry of the `_verifyOrders` result table. -/
structure VerifEntry where
  found : Bool
  status : Option String
  action : Option String
  qty : Option ℤ
  priceType : Option String
  limitPrice : Option ℚ
  stopPrice : Option ℚ
deriving Repr, DecidableEq

/-- The `{ found: false, status: null }` initial entry. -/
def emptyVerif : VerifEntry :=
  { found := false, status := none, action := none, qty := none
    priceType := none, limitPrice := none, stopPrice := none }

/-- The `_verifyOrders` entry built from a matching broker order
(`OrderDetail?.[0] ?? {}` and `Instrument?.[0] ?? {}` become head-or-empty). -/
def verifEntryOf (o : BrokerOrder) : VerifEntry :=
  let detail := o.details.headD ⟨none, none, none, []⟩
  let instrument := detail.instruments.headD ⟨none, none⟩
  { found := true, status := o.orderStatus, action := instrument.orderAction
    qty := instrument.orderedQuantity, priceType := detail.priceType
    limitPrice := detail.limitPrice, stopPrice := detail.stopPrice }

/-- Source: `_verifyOrders(service, accountIdKey, orderIds)` — seed every id
with `{found:false,status:null}`, then scan the re-fetched order list; a
thrown `getOrders` is caught (warning only) and the seeded table is returned
unchanged. This function never fails. -/
def verifyOrders (ordersFetch : Except String (List BrokerOrder)) (orderIds : List ℕ) :
    List (ℕ × VerifEntry) :=
  let init := orderIds.map (fun i => (i, emptyVerif))
  match ordersFetch with
  | Except.error _ => init
  | Except.ok orders =>
    orders.foldl
      (fun res o => if hasKV o.orderId res then setKV o.orderId (verifEntryOf o) res else res)
      init

/-- Broker oracles for one `placeBuyOrder` call: the preview call (which may
throw, or return a body whose `PreviewIds[0].previewId` chain may be null),
the place call (which may throw, or return a body whose `OrderIds[0].orderId`
chain may be null), and the `getOrders` re-fetch used for verification. -/
structure Broker where
  previewResult : Except String (Option ℕ)
  placeResult : Except String (Option ℕ)
  ordersFetch : Except String (List BrokerOrder)
deriving Repr

/-- Broker calls made by the pipeline, in program order. -/
inductive PipeEv where
  | previewCall
  | placeCall (previewId : ℕ)
deriving Repr, DecidableEq

/-- Source: `previewThenPlace(service, accountIdKey, orderDetail)` — preview,
fail when no `previewId` came back, else place referencing it and return the
(possibly null) broker order id. Thrown broker errors propagate untouched. -/
def previewThenPlace (b : Broker) : Except String (Option ℕ) × List PipeEv :=
  match b.previewResult with
  | Except.error e => (Except.error e, [PipeEv.previewCall])
  | Except.ok none =>
    (Except.error "Preview returned no previewId", [PipeEv.previewCall])
  | Except.ok (some pid) =>
    match b.placeResult with
    | Except.error e => (Except.error e, [PipeEv.previewCall, PipeEv.placeCall pid])
    | Except.ok oid => (Except.ok oid, [PipeEv.previewCall, PipeEv.placeCall pid])

/-- The value returned by `placeBuyOrder`. -/
structure BuyResult where
  buyOrderId : Option ℕ
  accountIdKey : String
  verification : List (ℕ × VerifEntry)
deriving Repr, DecidableEq

/-- Source: `placeBuyOrder(symbol, qty, entryPrice)` — place via
`previewThenPlace`, then verify `[buyOrderId].filter(Boolean)` (broker order
ids are modelled as non-null naturals, so the filter only drops the null
case). Verification cannot fail, so a successful placement always returns. -/
def placeBuyOrder (b : Broker) (accountIdKey : String) :
    Except String BuyResult × List PipeEv :=
  match previewThenPlace b with
  | (Except.error e, evs) => (Except.error e, evs)
  | (Except.ok oid, evs) =>
    let ids := match oid with | some i => [i] | none => []
    (Except.ok
      { buyOrderId := oid, accountIdKey := accountIdKey
        verification := verifyOrders b.ordersFetch ids }, evs)

-- ═══════════════════════════════════════════════════════════════════════════
-- Theorems
-- ═══════════════════════════════════════════════════════════════════════════

/-- C4: plan-parameter validation rejects every parsed plan with
buyLow ≥ buyHigh, or takeProfit ≤ buyHigh, or stopLoss ≥ buyLow, and a
rejected plan is never registered — the whole trade state is unchanged and
the outcome is never `accepted`. -/
theorem C4_theorem (st : TradeState) (symbol userId : String) (p : ParsedPlan)
    (h : p.buyLow ≥ p.buyHigh ∨ p.takeProfit ≤ p.buyHigh ∨ p.stopLoss ≥ p.buyLow) :
    (handleParams st symbol userId p).1 = st ∧
      ∀ q, (handleParams st symbol userId p).2 ≠ ParamsOutcome.accepted q := by
  unfold handleParams
  split_ifs with h1 h2 h3 h4 h5 <;> simp_all

/-- An invalid parsed plan used by the C4 witness (buy zone inverted). -/
def badParsedPlan : ParsedPlan :=
  { buyLow := 172, buyHigh := 170, takeProfit := 185, stopLoss := 165
    budget := some 1000, fixedQty := none }

/-- A small concrete state used by several witnesses. -/
def stWitness : TradeState :=
  { alerts := [], pendingFills := [], priceHistory := [], hasSendFn := true }

theorem C4_witness :
    (handleParams stWitness "AAPL" "u1" badParsedPlan).1 = stWitness ∧
      ∀ q, (handleParams stWitness "AAPL" "u1" badParsedPlan).2 ≠ ParamsOutcome.accepted q :=
  C4_theorem stWitness "AAPL" "u1" badParsedPlan (Or.inl (by norm_num [badParsedPlan]))

/-- C3: the order quantity of a fired alert and of a confirmation is
`fixedQty` when the fixed quantity is set and `floor(budget / triggerPrice)`
when the budget is set; a confirmation whose computed quantity is not
positive is rejected without submitting a BUY, and every submitted BUY has a
positive quantity matching the formula. -/
theorem C3_theorem :
    (∀ (text : String) (d : TaskData) (s : String) (q : ℤ) (pr : ℚ),
      handleConfirmation text d = ConfirmOutcome.buySubmitted s q pr →
        0 < q ∧ s = d.symbol ∧ pr = d.triggerPrice ∧
          (∀ q0, d.fixedQty = some q0 → q = q0) ∧
          (d.fixedQty = none → ∀ b, d.budget = some b → q = Int.floor (b / d.triggerPrice))) ∧
    (∀ (text : String) (d : TaskData),
      jsTrim (jsToLower text) = "confirm" → confirmQty d ≤ 0 →
        handleConfirmation text d = ConfirmOutcome.rejectedZeroQty (confirmQty d)) ∧
    (∀ (env : Env) (p : Plan) (price : ℚ),
      Ev.buyAlertSent p.userId p.symbol (fireQty p price) price ∈ fireEvents env true p price ∧
        (∀ q0, p.fixedQty = some q0 → fireQty p price = q0) ∧
        (p.fixedQty = none → ∀ b, p.budget = some b →
          fireQty p price = Int.floor (b / price))) := by
  refine ⟨?_, ?_, ?_⟩
  · intro text d s q pr h
    unfold handleConfirmation at h
    split_ifs at h with h1 h2 h3
    cases h
    refine ⟨by omega, rfl, rfl, ?_, ?_⟩
    · intro q0 hq0; simp [confirmQty, hq0]
    · intro hq0 b hb; simp [confirmQty, hq0, hb, calcQty]
  · intro text d hconfirm hqty
    unfold handleConfirmation
    have hnc : jsTrim (jsToLower text) ≠ "cancel" := by
      rw [hconfirm]; decide
    simp [hconfirm, hnc, hqty]
  · intro env p price
    refine ⟨?_, ?_, ?_⟩
    · simp [fireEvents]
    · intro q0 hq0; simp [fireQty, hq0]
    · intro hq0 b hb; simp [fireQty, hq0, hb]

/-- Task data used by the C3 witness (Scenario A numbers). -/
def dataA : TaskData :=
  { symbol := "AAPL", triggerPrice := 171, takeProfit := 185, stopLoss := 165
    budget := some 1000, fixedQty := none }

/-- Task data with a budget below the price, so the computed quantity is 0. -/
def dataSmall : TaskData :=
  { symbol := "AAPL", triggerPrice := 171, takeProfit := 185, stopLoss := 165
    budget := some 100, fixedQty := none }

theorem C3_witness :
    (0 < (5 : ℤ) ∧ "AAPL" = dataA.symbol ∧ (171 : ℚ) = dataA.triggerPrice ∧
      (∀ q0, dataA.fixedQty = some q0 → (5 : ℤ) = q0) ∧
      (dataA.fixedQty = none → ∀ b, dataA.budget = some b →
        (5 : ℤ) = Int.floor (b / dataA.triggerPrice))) ∧
    handleConfirmation "confirm" dataSmall = ConfirmOutcome.rejectedZeroQty 0 := by
  constructor
  · refine C3_theorem.1 "confirm" dataA "AAPL" 5 171 ?_
    have hlow : jsTrim (jsToLower "confirm") = "confirm" := by decide
    norm_num [handleConfirmation, confirmQty, calcQty, dataA, hlow]
    decide
  · have h := C3_theorem.2.1 "confirm" dataSmall (by decide)
      (by norm_num [confirmQty, calcQty, dataSmall])
    have hq : confirmQty dataSmall = 0 := by
      norm_num [confirmQty, calcQty, dataSmall]
    rw [hq] at h
    exact h

/-- C7 (part): when `getOrders` throws during verification, the seeded
not-found table is returned unchanged. -/
theorem verifyOrders_error (e : String) (ids : List ℕ) :
    verifyOrders (Except.error e) ids = ids.map (fun i => (i, emptyVerif)) := by
  simp [verifyOrders]

/-- Helper: scanning orders none of which carry the sought id leaves the
seeded table unchanged. -/
theorem verify_foldl_const (orders : List BrokerOrder) (i : ℕ)
    (h : ∀ o ∈ orders, o.orderId ≠ i) :
    orders.foldl
      (fun res o => if hasKV o.orderId res then setKV o.orderId (verifEntryOf o) res else res)
      [(i, emptyVerif)] = [(i, emptyVerif)] := by
  induction orders with
  | nil => rfl
  | cons o rest ih =>
    have ho : o.orderId ≠ i := h o (by simp)
    have hstep : hasKV o.orderId [(i, emptyVerif)] = false := by
      have hd : (decide (i = o.orderId)) = false := decide_eq_false (fun hh => ho hh.symm)
      simp [hasKV, getKV, List.find?, hd]
    simp only [List.foldl_cons, hstep, Bool.false_eq_true, if_false]
    exact ih (fun o2 ho2 => h o2 (by simp [ho2]))

/-- C7: `placeBuyOrder` fails (placing nothing) whenever the preview reply
has no preview id; after a successful placement the call returns `ok`
whatever the verification re-fetch does, and a thrown or empty re-fetch only
yields a `found := false` table. -/
theorem C7_theorem (b : Broker) (acct : String) :
    (b.previewResult = Except.ok none →
      (∃ e, (placeBuyOrder b acct).1 = Except.error e) ∧
        ∀ pid, PipeEv.placeCall pid ∉ (placeBuyOrder b acct).2) ∧
    (∀ pid oid, b.previewResult = Except.ok (some pid) → b.placeResult = Except.ok oid →
      (placeBuyOrder b acct).1 = Except.ok
        { buyOrderId := oid, accountIdKey := acct
          verification := verifyOrders b.ordersFetch
            (match oid with | some i => [i] | none => []) }) ∧
    (∀ e ids, b.ordersFetch = Except.error e →
      verifyOrders b.ordersFetch ids = ids.map (fun i => (i, emptyVerif))) ∧
    (∀ orders i, b.ordersFetch = Except.ok orders → (∀ o ∈ orders, o.orderId ≠ i) →
      verifyOrders b.ordersFetch [i] = [(i, emptyVerif)]) := by
  refine ⟨?_, ?_, ?_, ?_⟩
  · intro hp
    unfold placeBuyOrder previewThenPlace
    rw [hp]
    exact ⟨⟨_, rfl⟩, by simp⟩
  · intro pid oid hp hpl
    unfold placeBuyOrder previewThenPlace
    rw [hp, hpl]
  · intro e ids hf
    rw [hf]
    exact verifyOrders_error e ids
  · intro orders i hf h
    rw [hf]
    simp only [verifyOrders, List.map]
    exact verify_foldl_const orders i h

/-- Broker whose preview reply has no preview id. -/
def brokerNoPreview : Broker :=
  { previewResult := Except.ok none, placeResult := Except.ok (some 11)
    ordersFetch := Except.error "boom" }

/-- Broker that places order 42 but whose verification re-fetch throws. -/
def brokerVerifFails : Broker :=
  { previewResult := Except.ok (some 7), placeResult := Except.ok (some 42)
    ordersFetch := Except.error "listing lag" }

theorem C7_witness :
    ((∃ e, (placeBuyOrder brokerNoPreview "a1").1 = Except.error e) ∧
      ∀ pid, PipeEv.placeCall pid ∉ (placeBuyOrder brokerNoPreview "a1").2) ∧
    (placeBuyOrder brokerVerifFails "a1").1 = Except.ok
      { buyOrderId := some 42, accountIdKey := "a1"
        verification := [(42, emptyVerif)] } := by
  constructor
  · exact (C7_theorem brokerNoPreview "a1").1 rfl
  · have h := (C7_theorem brokerVerifFails "a1").2.1 7 (some 42) rfl rfl
    have hv : verifyOrders brokerVerifFails.ordersFetch [42] = [(42, emptyVerif)] := by
      simp [verifyOrders, brokerVerifFails]
    simpa [hv] using h

/-- C8: with at least two observations, the trend label is the claimed total
function of the percentage change from the oldest buffered price to the
newest price (≤ −0.5 → down, ≥ +0.5 → up, else ranging); with fewer than two
observations no summary is produced. -/
theorem C8_theorem (now : ℕ) (buf : List Obs) (cur : ℚ) :
    (buildTrendSummary now buf cur = none ↔ buf.length < 2) ∧
    (∀ ts, buildTrendSummary now buf cur = some ts →
      (let oldest := (buf.map (fun o => o.price)).headD 0
       let pct := ((cur - oldest) / oldest) * 100
       (pct ≤ -(1/2) → ts.direction = "↘ trending down") ∧
       (1/2 ≤ pct → ts.direction = "↗ trending up") ∧
       (-(1/2) < pct → pct < 1/2 → ts.direction = "↔ ranging"))) := by
  constructor
  · unfold buildTrendSummary
    split_ifs with h <;> simp [h]
  · intro ts hts
    unfold buildTrendSummary at hts
    split_ifs at hts with h
    refine ⟨?_, ?_, ?_⟩
    · intro hle
      cases hts
      simp only [if_pos hle]
    · intro hge
      have hnle : ¬(((cur - (buf.map (fun o => o.price)).headD 0) /
          (buf.map (fun o => o.price)).headD 0) * 100 ≤ -(1/2)) := by
        intro hc; linarith
      cases hts
      simp only [if_neg hnle, if_pos hge]
    · intro hgt hlt
      have hnle : ¬(((cur - (buf.map (fun o => o.price)).headD 0) /
          (buf.map (fun o => o.price)).headD 0) * 100 ≤ -(1/2)) := by
        intro hc; linarith
      have hnge : ¬((1:ℚ)/2 ≤ ((cur - (buf.map (fun o => o.price)).headD 0) /
          (buf.map (fun o => o.price)).headD 0) * 100) := by
        intro hc; linarith
      cases hts
      simp only [if_neg hnle, if_neg hnge]

/-- Scenario E buffer: prices 100, 101, 99, 98, 97 over five polls. -/
def bufScenarioE : List Obs :=
  [⟨100, 0⟩, ⟨101, 60⟩, ⟨99, 120⟩, ⟨98, 180⟩, ⟨97, 240⟩]

theorem C8_witness :
    ∃ ts, buildTrendSummary 300 bufScenarioE 97 = some ts ∧
      ts.direction = "↘ trending down" := by
  rcases h : buildTrendSummary 300 bufScenarioE 97 with _ | ts
  · exact absurd ((C8_theorem 300 bufScenarioE 97).1.mp h) (by norm_num [bufScenarioE])
  · refine ⟨ts, rfl, ?_⟩
    exact ((C8_theorem 300 bufScenarioE 97).2 ts h).1 (by norm_num [bufScenarioE])

-- ── C6: history pruning on plan removal ──────────────────────────────────────

/-- Plan used by the C6 counterexample. -/
def planC6 : Plan :=
  { symbol := "AAPL", userId := "u1", buyLow := 170, buyHigh := 172
    takeProfit := 185, stopLoss := 165, budget := some 1000, fixedQty := none }

/-- Pending fill (same symbol, another user) used by the C6 counterexample. -/
def fillC6 : Fill :=
  { symbol := "AAPL", userId := "u2", buyOrderId := 7, accountIdKey := "acct"
    qty := 5, takeProfit := 185, stopLoss := 165 }

/-- State with one AAPL plan, one AAPL pending fill, and AAPL price history. -/
def stC6 : TradeState :=
  { alerts := [(("AAPL", "u1"), planC6)]
    pendingFills := [(("AAPL", "u2"), fillC6)]
    priceHistory := [("AAPL", [⟨100, 0⟩])]
    hasSendFn := true }

/-- C6 counterexample: a PendingFill for AAPL exists, AAPL has price history,
and removing the last WatchPlan for AAPL deletes that history anyway — the
claim says it must be left unchanged while a pending fill references the
symbol, but `_pruneHistory` only consults the alerts map. -/
theorem C6_counterexample :
    (getKV ("AAPL", "u2") stC6.pendingFills = some fillC6) ∧
    getKV "AAPL" stC6.priceHistory = some [⟨100, 0⟩] ∧
    (removeAlert stC6 "AAPL" "u1").2 = true ∧
    getKV "AAPL" (removeAlert stC6 "AAPL" "u1").1.priceHistory = none := by
  decide

/-- C6 as amended: `removeAlert` returns true exactly when a plan for
(symbol, userId) was present; on removal the symbol's history is pruned
exactly when no remaining WatchPlan references the symbol — pending fills
are not consulted, and the resulting history never depends on them. -/
theorem C6_theorem (st : TradeState) (symbol userId : String) :
    ((removeAlert st symbol userId).2 = hasKV (jsToUpper symbol, userId) st.alerts) ∧
    (hasKV (jsToUpper symbol, userId) st.alerts = false →
      removeAlert st symbol userId = (st, false)) ∧
    (hasKV (jsToUpper symbol, userId) st.alerts = true →
      (removeAlert st symbol userId).1.alerts = delKV (jsToUpper symbol, userId) st.alerts ∧
      ((delKV (jsToUpper symbol, userId) st.alerts).any
          (fun kp => decide (kp.2.symbol = jsToUpper symbol)) = true →
        (removeAlert st symbol userId).1.priceHistory = st.priceHistory) ∧
      ((delKV (jsToUpper symbol, userId) st.alerts).any
          (fun kp => decide (kp.2.symbol = jsToUpper symbol)) = false →
        (removeAlert st symbol userId).1.priceHistory =
          delKV (jsToUpper symbol) st.priceHistory)) ∧
    (∀ pf, (removeAlert { st with pendingFills := pf } symbol userId).1.priceHistory =
      (removeAlert st symbol userId).1.priceHistory) := by
  refine ⟨?_, ?_, ?_, ?_⟩
  · simp only [removeAlert]
    split_ifs with h <;> simp [h]
  · intro h
    simp [removeAlert, h]
  · intro h
    simp only [removeAlert, pruneHistory, h, if_true]
    refine ⟨by split_ifs <;> rfl, ?_, ?_⟩
    · intro hw
      simp [hw]
    · intro hw
      simp [hw]
  · intro pf
    simp only [removeAlert, pruneHistory]
    split_ifs <;> rfl

theorem C6_witness :
    (removeAlert stC6 "AAPL" "u1").2 = hasKV (jsToUpper "AAPL", "u1") stC6.alerts ∧
    (removeAlert stC6 "AAPL" "u1").1.priceHistory =
      delKV (jsToUpper "AAPL") stC6.priceHistory := by
  refine ⟨(C6_theorem stC6 "AAPL" "u1").1, ?_⟩
  exact (((C6_theorem stC6 "AAPL" "u1").2.2.1 (by decide)).2.2 (by decide))

-- ── C9: sparkline bucketing window ───────────────────────────────────────────

/-- An 11-observation buffer whose global minimum (the oldest price 1) falls
outside the 10-price sparkline sample. -/
def bufC9 : List Obs :=
  [⟨1, 0⟩, ⟨100, 1⟩, ⟨100, 2⟩, ⟨100, 3⟩, ⟨100, 4⟩, ⟨100, 5⟩, ⟨100, 6⟩, ⟨100, 7⟩,
   ⟨100, 8⟩, ⟨100, 9⟩, ⟨200, 10⟩]

/-- Modelled from the claim's wording, NOT from the source: a sparkline whose
buckets run between the whole window's min and max (the min/max over all
buffered observations) while still sampling the most recent ≤ 10 prices.
Used only to compare the claimed behaviour with the source behaviour. -/
def sparklineSpecWholeWindow (prices : List ℚ) : String :=
  let sample := prices.drop (prices.length - 10)
  let lo := minOf prices
  let hi := maxOf prices
  String.join (sample.map (fun p =>
    if hi = lo then "▄"
    else (sparkBlocks.getD (jsRound ((p - lo) / (hi - lo) * 7)).toNat "▁")))

/-- C9 counterexample: on `bufC9` the source buckets between the sample's own
min/max (100–200), giving nine minimum-intensity glyphs, while bucketing
between the whole window's min/max (1–200), as the claim states, gives
mid-intensity glyphs — the two sparklines differ. -/
theorem C9_counterexample :
    2 ≤ bufC9.length ∧
    (buildTrendSummary 11 bufC9 200).map (fun t => t.sparkline) = some "▁▁▁▁▁▁▁▁▁█" ∧
    sparklineSpecWholeWindow (bufC9.map (fun o => o.price)) = "▄▄▄▄▄▄▄▄▄█" ∧
    ("▁▁▁▁▁▁▁▁▁█" : String) ≠ "▄▄▄▄▄▄▄▄▄█" := by
  refine ⟨by decide, ?_, ?_, by decide⟩
  · norm_num [buildTrendSummary, bufC9, sparklineOf, minOf, maxOf, jsRound, sparkBlocks,
      min_def, max_def, String.join]
    decide
  · norm_num [sparklineSpecWholeWindow, bufC9, minOf, maxOf, jsRound, sparkBlocks,
      min_def, max_def, String.join]
    decide

/-- C9 as amended: the sparkline of every produced trend summary is built
from the most recent at-most-10 buffered prices, each bucketed linearly
between the minimum and maximum of that sample (not of the whole window),
with the middle glyph on a flat sample. -/
theorem C9_theorem (now : ℕ) (buf : List Obs) (cur : ℚ) (ts : TrendSummary)
    (h : buildTrendSummary now buf cur = some ts) :
    ts.sparkline =
      (let prices := buf.map (fun o => o.price)
       let sample := prices.drop (prices.length - 10)
       let lo := minOf sample
       let hi := maxOf sample
       String.join (sample.map (fun p =>
         if hi = lo then "▄"
         else (sparkBlocks.getD (jsRound ((p - lo) / (hi - lo) * 7)).toNat "▁")))) := by
  unfold buildTrendSummary at h
  split_ifs at h
  cases h
  rfl

theorem C9_witness :
    ∃ ts, buildTrendSummary 11 bufC9 200 = some ts ∧
      ts.sparkline =
        (let prices := bufC9.map (fun o => o.price)
         let sample := prices.drop (prices.length - 10)
         let lo := minOf sample
         let hi := maxOf sample
         String.join (sample.map (fun p =>
           if hi = lo then "▄"
           else (sparkBlocks.getD (jsRound ((p - lo) / (hi - lo) * 7)).toNat "▁")))) := by
  rcases h : buildTrendSummary 11 bufC9 200 with _ | ts
  · exact absurd h (by simp [buildTrendSummary, bufC9])
  · exact ⟨ts, rfl, C9_theorem 11 bufC9 200 ts h⟩

-- ── Shared machinery: event ordering within a trace ──────────────────────────

/-- `beforeIn l r q`: every prefix of `l` that contains a `q`-event already
contains an `r`-event; in other words every `q`-event is preceded by some
`r`-event. -/
def beforeIn (l : List Ev) (r q : Ev → Bool) : Prop :=
  ∀ n, (l.take n).any q = true → (l.take n).any r = true

theorem beforeIn_append {A B : List Ev} {r q : Ev → Bool}
    (hA : beforeIn A r q) (hB : beforeIn B r q) : beforeIn (A ++ B) r q := by
  intro n h
  rw [List.take_append_eq_append_take, List.any_append] at h ⊢
  rcases Bool.or_eq_true_iff.mp h with h1 | h2
  · exact Bool.or_eq_true_iff.mpr (Or.inl (hA n h1))
  · exact Bool.or_eq_true_iff.mpr (Or.inr (hB _ h2))

theorem beforeIn_of_not_any {l : List Ev} {r q : Ev → Bool}
    (h : l.any q = false) : beforeIn l r q := by
  intro n hn
  exfalso
  rcases List.any_eq_true.mp hn with ⟨x, hx, hqx⟩
  have : l.any q = true := List.any_eq_true.mpr ⟨x, List.take_subset n l hx, hqx⟩
  rw [h] at this
  exact Bool.false_ne_true this

theorem beforeIn_head {x : Ev} {rest : List Ev} {r q : Ev → Bool}
    (h : r x = true) : beforeIn (x :: rest) r q := by
  intro n hn
  cases n with
  | zero => simp at hn
  | succ m =>
    rw [List.take_succ_cons, List.any_cons, h]
    rfl

theorem beforeIn_flatMap {β : Type} {l : List β} {f : β → List Ev} {r q : Ev → Bool}
    (h : ∀ x ∈ l, beforeIn (f x) r q) : beforeIn (l.flatMap f) r q := by
  induction l with
  | nil => intro n hn; simp at hn
  | cons x rest ih =>
    rw [List.flatMap_cons]
    exact beforeIn_append (h x (by simp)) (ih (fun y hy => h y (by simp [hy])))

/-- Two entries of a map with no duplicate keys and equal keys are equal. -/
theorem eq_of_nodup_keys {α : Type} {l : List (Key × α)}
    (h : (l.map Prod.fst).Nodup) {k : Key} {a b : α}
    (ha : (k, a) ∈ l) (hb : (k, b) ∈ l) : a = b := by
  induction l with
  | nil => cases ha
  | cons x rest ih =>
    rcases List.mem_cons.mp ha with ha1 | ha1 <;> rcases List.mem_cons.mp hb with hb1 | hb1
    · have h2 : (k, b) = (k, a) := hb1.trans ha1.symm
      exact (congrArg Prod.snd h2).symm
    · exfalso
      have hk : x.1 = k := by rw [← ha1]
      have hin : k ∈ rest.map Prod.fst := List.mem_map.mpr ⟨(k, b), hb1, rfl⟩
      rw [List.map_cons, List.nodup_cons] at h
      exact h.1 (hk ▸ hin)
    · exfalso
      have hk : x.1 = k := by rw [← hb1]
      have hin : k ∈ rest.map Prod.fst := List.mem_map.mpr ⟨(k, a), ha1, rfl⟩
      rw [List.map_cons, List.nodup_cons] at h
      exact h.1 (hk ▸ hin)
    · exact ih (by rw [List.map_cons, List.nodup_cons] at h; exact h.2) ha1 hb1

/-- The keys of a registry snapshot are pairwise distinct (a JS `Map` cannot
hold two entries with one key). -/
def NodupKeys {α : Type} (l : List (Key × α)) : Prop :=
  (l.map Prod.fst).Nodup

/-- Every pending-fill entry is stored under the key built from its own
symbol and user — established by `addPendingFill`. -/
def FillsWellKeyed (l : List (Key × Fill)) : Prop :=
  ∀ kf ∈ l, kf.1 = (kf.2.symbol, kf.2.userId)

instance {α : Type} (l : List (Key × α)) : Decidable (NodupKeys l) := by
  unfold NodupKeys; infer_instance

instance (l : List (Key × Fill)) : Decidable (FillsWellKeyed l) := by
  unfold FillsWellKeyed; exact List.decidableBAll _ l

-- ── Shared machinery: the fill-monitor trace in normal form ──────────────────

/-- The events of `fillStep`, which depend on the state only through
`hasSendFn`. -/
def fillEvents (env : Env) (send : Bool) (k : Key) (f : Fill) : List Ev :=
  match env.poll f.accountIdKey f.buyOrderId with
  | PollResult.threw => [Ev.warnLogged f.symbol]
  | PollResult.got s =>
    if s = some "EXECUTED" then
      Ev.pendingDeleted k :: placeFillExits env send f
    else if s = some "CANCELLED" ∨ s = some "EXPIRED" then
      Ev.pendingDeleted k ::
        (if send then [Ev.abortSent f.userId f.symbol (s.getD "")] else [])
    else []

theorem fillStep_hasSendFn (env : Env) (st : TradeState) (k : Key) (f : Fill) :
    (fillStep env st k f).1.hasSendFn = st.hasSendFn := by
  unfold fillStep
  cases env.poll f.accountIdKey f.buyOrderId with
  | threw => rfl
  | got s =>
    dsimp only
    split_ifs <;> rfl

theorem fillStep_events (env : Env) (st : TradeState) (k : Key) (f : Fill) :
    (fillStep env st k f).2 = fillEvents env st.hasSendFn k f := by
  unfold fillStep fillEvents
  cases env.poll f.accountIdKey f.buyOrderId with
  | threw => rfl
  | got s =>
    dsimp only
    split_ifs <;> rfl

theorem processFills_hasSendFn (env : Env) (st : TradeState) (l : List (Key × Fill)) :
    (processFills env st l).1.hasSendFn = st.hasSendFn := by
  induction l generalizing st with
  | nil => rfl
  | cons kf rest ih =>
    obtain ⟨k, f⟩ := kf
    simp only [processFills]
    rw [ih, fillStep_hasSendFn]

/-- The trace of `processFills` is the concatenation of the per-entry event
blocks, each a function of the entry alone. -/
theorem processFills_events (env : Env) (st : TradeState) (l : List (Key × Fill)) :
    (processFills env st l).2 =
      l.flatMap (fun kf => fillEvents env st.hasSendFn kf.1 kf.2) := by
  induction l generalizing st with
  | nil => rfl
  | cons kf rest ih =>
    obtain ⟨k, f⟩ := kf
    simp only [processFills, List.flatMap_cons]
    rw [ih, fillStep_events, fillStep_hasSendFn]

/-- A pending fill that survives one fill step was already present. -/
theorem fillStep_pending_subset {env : Env} {st : TradeState} {k : Key} {f : Fill}
    {x : Key × Fill} (h : x ∈ (fillStep env st k f).1.pendingFills) :
    x ∈ st.pendingFills := by
  unfold fillStep at h
  cases hp : env.poll f.accountIdKey f.buyOrderId with
  | threw => rw [hp] at h; exact h
  | got s =>
    rw [hp] at h
    dsimp only at h
    split_ifs at h <;> first
      | exact h
      | exact (List.mem_filter.mp h).1

theorem processFills_pending_subset {env : Env} {l : List (Key × Fill)}
    {st : TradeState} {x : Key × Fill}
    (h : x ∈ (processFills env st l).1.pendingFills) : x ∈ st.pendingFills := by
  induction l generalizing st with
  | nil => exact h
  | cons kf rest ih =>
    obtain ⟨k, f⟩ := kf
    simp only [processFills] at h
    exact fillStep_pending_subset (ih h)

/-- After the monitor sees `EXECUTED` for an entry's BUY, no entry with that
key is left in the registry. -/
theorem processFills_removes {env : Env} {l : List (Key × Fill)} {st : TradeState}
    {k : Key} {f : Fill} (hmem : (k, f) ∈ l)
    (hexec : env.poll f.accountIdKey f.buyOrderId = PollResult.got (some "EXECUTED")) :
    ∀ f2, (k, f2) ∉ (processFills env st l).1.pendingFills := by
  induction l generalizing st with
  | nil => cases hmem
  | cons kf rest ih =>
    obtain ⟨k0, f0⟩ := kf
    rcases List.mem_cons.mp hmem with heq | hrest
    · have hk : k0 = k := (congrArg Prod.fst heq).symm
      have hf : f0 = f := (congrArg Prod.snd heq).symm
      intro f2 hc
      simp only [processFills] at hc
      have hin : (k, f2) ∈ (fillStep env st k0 f0).1.pendingFills :=
        processFills_pending_subset hc
      unfold fillStep at hin
      rw [hf, hexec] at hin
      simp only [if_pos rfl] at hin
      have hflt := (List.mem_filter.mp hin).2
      rw [hk] at hflt
      simp at hflt
    · intro f2 hc
      simp only [processFills] at hc
      exact ih hrest f2 hc

/-- Membership of an exit-order call in one entry's event block forces an
`EXECUTED` poll of that entry and matching fill fields. -/
theorem exitCall_mem_fillEvents {env : Env} {send : Bool} {k : Key} {f : Fill}
    {s u : String} {q : ℤ} {tp sl : ℚ} :
    Ev.exitOrdersCall s u q tp sl ∈ fillEvents env send k f ↔
      (env.poll f.accountIdKey f.buyOrderId = PollResult.got (some "EXECUTED") ∧
        s = f.symbol ∧ u = f.userId ∧ q = f.qty ∧ tp = f.takeProfit ∧ sl = f.stopLoss) := by
  unfold fillEvents placeFillExits
  cases hp : env.poll f.accountIdKey f.buyOrderId with
  | threw => simp
  | got s0 =>
    by_cases h1 : s0 = some "EXECUTED"
    · subst h1
      simp only [if_pos rfl]
      split_ifs with hok hsend hsend <;>
        simp [List.mem_cons, Ev.exitOrdersCall.injEq]
    · simp only [if_neg h1]
      have h2 : ¬(some "EXECUTED" = s0) := fun hc => h1 hc.symm
      split_ifs with h3 h4 <;> simp [List.mem_cons, h1, h2]

theorem checkFills_events (env : Env) (st : TradeState) :
    (checkFills env st).2 =
      st.pendingFills.flatMap (fun kf => fillEvents env st.hasSendFn kf.1 kf.2) := by
  unfold checkFills
  by_cases h : st.pendingFills.isEmpty
  · rw [if_pos h, List.isEmpty_iff.mp h]
    rfl
  · rw [if_neg h]
    exact processFills_events env st st.pendingFills

theorem checkFills_pending_subset {env : Env} {st : TradeState} {x : Key × Fill}
    (h : x ∈ (checkFills env st).1.pendingFills) : x ∈ st.pendingFills := by
  unfold checkFills at h
  by_cases he : st.pendingFills.isEmpty
  · rw [if_pos he] at h; exact h
  · rw [if_neg he] at h; exact processFills_pending_subset h

theorem checkFills_removes {env : Env} {st : TradeState} {k : Key} {f : Fill}
    (hmem : (k, f) ∈ st.pendingFills)
    (hexec : env.poll f.accountIdKey f.buyOrderId = PollResult.got (some "EXECUTED")) :
    ∀ f2, (k, f2) ∉ (checkFills env st).1.pendingFills := by
  unfold checkFills
  by_cases he : st.pendingFills.isEmpty
  · rw [List.isEmpty_iff.mp he] at hmem; cases hmem
  · rw [if_neg he]
    exact processFills_removes hmem hexec

-- ── C1: exit orders and the polled BUY status ────────────────────────────────

/-- Pending fill used by the C1/C10 concrete states. -/
def fillC1 : Fill :=
  { symbol := "AAPL", userId := "u1", buyOrderId := 7, accountIdKey := "acct"
    qty := 5, takeProfit := 185, stopLoss := 165 }

/-- State with the single pending fill `fillC1` and no send function. -/
def stC1 : TradeState :=
  { alerts := [], pendingFills := [(("AAPL", "u1"), fillC1)], priceHistory := []
    hasSendFn := false }

/-- Environment whose status poll reports the BUY as still OPEN. -/
def envOpen : Env :=
  { quotes := fun _ => none
    poll := fun _ _ => PollResult.got (some "OPEN")
    exitOK := fun _ _ => true
    hasActiveTask := fun _ => false
    now := 0 }

/-- Environment whose status poll reports the BUY as EXECUTED. -/
def envExec : Env :=
  { quotes := fun _ => none
    poll := fun _ _ => PollResult.got (some "EXECUTED")
    exitOK := fun _ _ => true
    hasActiveTask := fun _ => false
    now := 0 }

/-- Environment that reports EXECUTED but whose exit-order placement throws. -/
def envExecFail : Env :=
  { quotes := fun _ => none
    poll := fun _ _ => PollResult.got (some "EXECUTED")
    exitOK := fun _ _ => false
    hasActiveTask := fun _ => false
    now := 0 }

/-- C1 counterexample: `forceTriggerFill` is a code path that places exit
orders while the polled status of the BUY is OPEN (it never consults the
status), so exit-order placement is NOT equivalent to an EXECUTED poll over
all code paths. -/
theorem C1_counterexample :
    envOpen.poll fillC1.accountIdKey fillC1.buyOrderId = PollResult.got (some "OPEN") ∧
    PollResult.got (some "OPEN") ≠ PollResult.got (some "EXECUTED") ∧
    Ev.exitOrdersCall "AAPL" "u1" 5 185 165 ∈
      (forceTriggerFill envOpen stC1 "AAPL" "u1").1.2 := by
  decide

/-- C1 as amended: within the Fill Monitor's polling path (`_checkFills`),
exit-order placement for a pending fill is attempted if and only if the
polled status of its BUY order is EXECUTED (CANCELLED, EXPIRED, OPEN, a
missing status, or a thrown poll never place exits there). -/
theorem C1_theorem (env : Env) (st : TradeState)
    (hkeys : NodupKeys st.pendingFills)
    (hwk : FillsWellKeyed st.pendingFills)
    (k : Key) (f : Fill) (hmem : (k, f) ∈ st.pendingFills) :
    Ev.exitOrdersCall f.symbol f.userId f.qty f.takeProfit f.stopLoss ∈ (checkFills env st).2
      ↔ env.poll f.accountIdKey f.buyOrderId = PollResult.got (some "EXECUTED") := by
  rw [checkFills_events]
  constructor
  · intro hm
    rcases List.mem_flatMap.mp hm with ⟨⟨k2, f2⟩, hkf2, hev⟩
    obtain ⟨hexec, hs, hu, hq, htp, hsl⟩ := exitCall_mem_fillEvents.mp hev
    have hk2 : k2 = (f2.symbol, f2.userId) := hwk _ hkf2
    have hk : k = (f.symbol, f.userId) := hwk _ hmem
    have hkk : k2 = k := by
      rw [hk2, hk, Prod.mk.injEq]
      exact ⟨hs.symm, hu.symm⟩
    have hf2 : f2 = f := eq_of_nodup_keys hkeys (hkk ▸ hkf2) hmem
    rw [hf2] at hexec
    exact hexec
  · intro hexec
    exact List.mem_flatMap.mpr
      ⟨(k, f), hmem, exitCall_mem_fillEvents.mpr ⟨hexec, rfl, rfl, rfl, rfl, rfl⟩⟩

theorem C1_witness :
    Ev.exitOrdersCall fillC1.symbol fillC1.userId fillC1.qty fillC1.takeProfit fillC1.stopLoss
        ∈ (checkFills envExec stC1).2 ∧
    Ev.exitOrdersCall fillC1.symbol fillC1.userId fillC1.qty fillC1.takeProfit fillC1.stopLoss
        ∉ (checkFills envOpen stC1).2 := by
  constructor
  · exact (C1_theorem envExec stC1 (by decide) (by decide) ("AAPL", "u1") fillC1
      (by decide)).mpr rfl
  · intro hc
    have h := (C1_theorem envOpen stC1 (by decide) (by decide) ("AAPL", "u1") fillC1
      (by decide)).mp hc
    exact absurd h (by decide)

-- ── C10: deletion before exit placement; no retry; silent when no sendFn ─────

theorem manual_not_mem_fillEvents {env : Env} {k : Key} {f : Fill}
    {u s2 : String} {q2 : ℤ} {tp2 sl2 : ℚ} :
    Ev.manualParamsSent u s2 q2 tp2 sl2 ∉ fillEvents env false k f := by
  unfold fillEvents placeFillExits
  cases env.poll f.accountIdKey f.buyOrderId with
  | threw => simp
  | got s =>
    by_cases h1 : s = some "EXECUTED" <;>
      by_cases h2 : s = some "CANCELLED" ∨ s = some "EXPIRED" <;>
      simp [h1, h2]

/-- C10: when the Fill Monitor observes EXECUTED for a pending fill, the
entry is deleted from the registry before the exit-order placement is
attempted (every prefix of the tick trace containing the placement attempt
already contains the deletion); after the tick no entry with that key
remains, so no later tick can attempt those exits again; and when no send
function is configured no manual-parameters failure notification is emitted
at all. -/
theorem C10_theorem (env : Env) (st : TradeState)
    (hwk : FillsWellKeyed st.pendingFills)
    (k : Key) (f : Fill) (hmem : (k, f) ∈ st.pendingFills)
    (hexec : env.poll f.accountIdKey f.buyOrderId = PollResult.got (some "EXECUTED"))
    (hsend : st.hasSendFn = false) :
    beforeIn (checkFills env st).2
      (fun e => decide (e = Ev.pendingDeleted k))
      (fun e => decide (e =
        Ev.exitOrdersCall f.symbol f.userId f.qty f.takeProfit f.stopLoss)) ∧
    (∀ f2, (k, f2) ∉ (checkFills env st).1.pendingFills) ∧
    (∀ u s2 q2 tp2 sl2, Ev.manualParamsSent u s2 q2 tp2 sl2 ∉ (checkFills env st).2) ∧
    (∀ env2, Ev.exitOrdersCall f.symbol f.userId f.qty f.takeProfit f.stopLoss ∉
      (checkFills env2 (checkFills env st).1).2) := by
  have hk : k = (f.symbol, f.userId) := hwk _ hmem
  refine ⟨?_, ?_, ?_, ?_⟩
  · rw [checkFills_events]
    apply beforeIn_flatMap
    rintro ⟨k2, f2⟩ hkf2
    by_cases hq : (fillEvents env st.hasSendFn k2 f2).any
        (fun e => decide (e =
          Ev.exitOrdersCall f.symbol f.userId f.qty f.takeProfit f.stopLoss)) = true
    · rcases List.any_eq_true.mp hq with ⟨ev, hev, hqev⟩
      have hevq : ev = Ev.exitOrdersCall f.symbol f.userId f.qty f.takeProfit f.stopLoss :=
        of_decide_eq_true hqev
      rw [hevq] at hev
      obtain ⟨hexec2, hs, hu, -, -, -⟩ := exitCall_mem_fillEvents.mp hev
      have hwk2 : k2 = (f2.symbol, f2.userId) := hwk (k2, f2) hkf2
      have hkk : k2 = k := by
        rw [hwk2, hk, Prod.mk.injEq]
        exact ⟨hs.symm, hu.symm⟩
      unfold fillEvents
      rw [hexec2]
      simp only [if_pos rfl]
      exact beforeIn_head (by rw [hkk]; simp)
    · exact beforeIn_of_not_any (Bool.not_eq_true _ ▸ hq)
  · exact checkFills_removes hmem hexec
  · intro u s2 q2 tp2 sl2 hc
    rw [checkFills_events] at hc
    rcases List.mem_flatMap.mp hc with ⟨⟨k2, f2⟩, -, hev⟩
    rw [hsend] at hev
    exact manual_not_mem_fillEvents hev
  · intro env2 hc
    rw [checkFills_events] at hc
    rcases List.mem_flatMap.mp hc with ⟨⟨k2, f2⟩, hkf2, hev⟩
    obtain ⟨-, hs, hu, -, -, -⟩ := exitCall_mem_fillEvents.mp hev
    have hkf2' : (k2, f2) ∈ st.pendingFills := checkFills_pending_subset hkf2
    have hwk2 : k2 = (f2.symbol, f2.userId) := hwk (k2, f2) hkf2'
    have hkk : k2 = k := by
      rw [hwk2, hk, Prod.mk.injEq]
      exact ⟨hs.symm, hu.symm⟩
    exact checkFills_removes hmem hexec f2 (hkk ▸ hkf2)

theorem C10_witness :
    (∀ f2, (("AAPL", "u1"), f2) ∉ (checkFills envExecFail stC1).1.pendingFills) ∧
    (∀ u s2 q2 tp2 sl2,
      Ev.manualParamsSent u s2 q2 tp2 sl2 ∉ (checkFills envExecFail stC1).2) := by
  have h := C10_theorem envExecFail stC1 (by decide) ("AAPL", "u1") fillC1
    (by decide) rfl rfl
  exact ⟨h.2.1, h.2.2.1⟩

-- ── Shared machinery: the price-poller trace in normal form ──────────────────

/-- Alert entries are stored under the key built from their own (uppercased)
symbol and user — established by `addAlert`, which uppercases on insert. -/
def AlertsWellKeyed (l : List (Key × Plan)) : Prop :=
  ∀ kp ∈ l, kp.1 = (kp.2.symbol, kp.2.userId) ∧ jsToUpper kp.2.symbol = kp.2.symbol

instance (l : List (Key × Plan)) : Decidable (AlertsWellKeyed l) := by
  unfold AlertsWellKeyed; exact List.decidableBAll _ l

/-- The events of one symbol group of `_checkPrices`, a function of the entry
and `hasSendFn` alone. -/
def symbolEvents (env : Env) (send : Bool) (symbol : String) (plans : List Plan) : List Ev :=
  match env.quotes symbol with
  | none => [Ev.fetch symbol, Ev.warnLogged symbol]
  | some price =>
    [Ev.fetch symbol, Ev.recordObs symbol price] ++
      plans.flatMap (eventsOfPlan env send price)

theorem removeAlert_hasSendFn (st : TradeState) (s u : String) :
    (removeAlert st s u).1.hasSendFn = st.hasSendFn := by
  unfold removeAlert pruneHistory
  dsimp only
  split_ifs <;> rfl

theorem fireAlert_hasSendFn (env : Env) (st : TradeState) (p : Plan) (pr : ℚ) :
    (fireAlert env st p pr).1.hasSendFn = st.hasSendFn := by
  unfold fireAlert
  exact removeAlert_hasSendFn st p.symbol p.userId

theorem processPlans_hasSendFn (env : Env) (price : ℚ) (st : TradeState) (plans : List Plan) :
    (processPlans env price st plans).1.hasSendFn = st.hasSendFn := by
  induction plans generalizing st with
  | nil => rfl
  | cons p ps ih =>
    simp only [processPlans]
    split_ifs with hz
    · rw [ih, fireAlert_hasSendFn]
    · exact ih st

theorem processPlans_events (env : Env) (price : ℚ) (st : TradeState) (plans : List Plan) :
    (processPlans env price st plans).2 =
      plans.flatMap (eventsOfPlan env st.hasSendFn price) := by
  induction plans generalizing st with
  | nil => rfl
  | cons p ps ih =>
    simp only [processPlans, List.flatMap_cons, eventsOfPlan]
    split_ifs with hz
    · rw [ih, fireAlert_hasSendFn]
    · simp only [List.nil_append]
      exact ih st

theorem processSymbol_hasSendFn (env : Env) (st : TradeState) (s : String) (ps : List Plan) :
    (processSymbol env st s ps).1.hasSendFn = st.hasSendFn := by
  unfold processSymbol
  cases env.quotes s with
  | none => rfl
  | some price =>
    dsimp only
    rw [processPlans_hasSendFn]
    rfl

theorem processSymbol_events (env : Env) (st : TradeState) (s : String) (ps : List Plan) :
    (processSymbol env st s ps).2 = symbolEvents env st.hasSendFn s ps := by
  unfold processSymbol symbolEvents
  cases env.quotes s with
  | none => rfl
  | some price =>
    dsimp only
    rw [processPlans_events]
    rfl

theorem processGroups_hasSendFn (env : Env) (st : TradeState)
    (groups : List (String × List Plan)) :
    (processGroups env st groups).1.hasSendFn = st.hasSendFn := by
  induction groups generalizing st with
  | nil => rfl
  | cons g rest ih =>
    obtain ⟨s, ps⟩ := g
    simp only [processGroups]
    rw [ih, processSymbol_hasSendFn]

theorem processGroups_events (env : Env) (st : TradeState)
    (groups : List (String × List Plan)) :
    (processGroups env st groups).2 =
      groups.flatMap (fun g => symbolEvents env st.hasSendFn g.1 g.2) := by
  induction groups generalizing st with
  | nil => rfl
  | cons g rest ih =>
    obtain ⟨s, ps⟩ := g
    simp only [processGroups, List.flatMap_cons]
    rw [ih, processSymbol_events, processSymbol_hasSendFn]

theorem checkPrices_events (env : Env) (st : TradeState) :
    (checkPrices env st).2 =
      (groupBySymbol st.alerts).flatMap (fun g => symbolEvents env st.hasSendFn g.1 g.2) := by
  unfold checkPrices
  by_cases h : st.alerts.isEmpty
  · rw [if_pos h]
    rw [List.isEmpty_iff.mp h]
    rfl
  · rw [if_neg h]
    exact processGroups_events env st (groupBySymbol st.alerts)

-- ── Shared machinery: `groupBySymbol` ────────────────────────────────────────

theorem insertGroup_symbols (acc : List (String × List Plan)) (s : String) (p : Plan) :
    (insertGroup acc s p).map Prod.fst =
      if s ∈ acc.map Prod.fst then acc.map Prod.fst else acc.map Prod.fst ++ [s] := by
  induction acc with
  | nil => simp [insertGroup]
  | cons g rest ih =>
    obtain ⟨s0, ps⟩ := g
    by_cases h : s0 = s
    · subst h
      simp [insertGroup, List.mem_cons]
    · simp only [insertGroup, if_neg h, List.map_cons]
      rw [ih]
      have hss0 : ¬(s = s0) := fun hc => h hc.symm
      by_cases h2 : s ∈ rest.map Prod.fst
      · rw [if_pos h2, if_pos (List.mem_cons.mpr (Or.inr h2))]
      · rw [if_neg h2, if_neg (by simp [List.mem_cons, hss0, h2]), List.cons_append]

theorem insertGroup_syminv {acc : List (String × List Plan)} {s : String} {p : Plan}
    (hacc : ∀ g ∈ acc, ∀ q ∈ g.2, q.symbol = g.1) (hp : p.symbol = s) :
    ∀ g ∈ insertGroup acc s p, ∀ q ∈ g.2, q.symbol = g.1 := by
  induction acc with
  | nil =>
    intro g hg q hq
    simp only [insertGroup, List.mem_singleton] at hg
    subst hg
    simp only [List.mem_singleton] at hq
    subst hq
    exact hp
  | cons g0 rest ih =>
    obtain ⟨s0, ps⟩ := g0
    intro g hg q hq
    by_cases h : s0 = s
    · subst h
      simp only [insertGroup, if_pos rfl] at hg
      cases hg with
      | head =>
        simp only at hq
        rcases List.mem_append.mp hq with hq1 | hq1
        · exact hacc (s0, ps) (by simp) q hq1
        · rw [List.mem_singleton.mp hq1, hp]
      | tail _ h1 => exact hacc g (List.mem_cons_of_mem _ h1) q hq
    · simp only [insertGroup, if_neg h] at hg
      cases hg with
      | head => exact hacc (s0, ps) (by simp) q hq
      | tail _ h1 =>
        exact ih (fun g2 hg2 => hacc g2 (List.mem_cons_of_mem _ hg2)) g h1 q hq

theorem insertGroup_flatten_countP (acc : List (String × List Plan)) (s : String) (p : Plan)
    (pred : Plan → Bool) :
    ((insertGroup acc s p).flatMap Prod.snd).countP pred =
      ((acc.flatMap Prod.snd).countP pred + if pred p then 1 else 0) := by
  induction acc with
  | nil => simp [insertGroup, List.countP_cons]
  | cons g rest ih =>
    obtain ⟨s0, ps⟩ := g
    by_cases h : s0 = s
    · subst h
      simp [insertGroup, List.countP_append, List.countP_cons]
      omega
    · simp [insertGroup, if_neg h, List.countP_append, ih]
      omega

theorem insertGroup_flatten_mem (acc : List (String × List Plan)) (s : String) (p q : Plan) :
    q ∈ (insertGroup acc s p).flatMap Prod.snd ↔
      q ∈ acc.flatMap Prod.snd ∨ q = p := by
  induction acc with
  | nil => simp [insertGroup]
  | cons g rest ih =>
    obtain ⟨s0, ps⟩ := g
    by_cases h : s0 = s
    · subst h
      simp [insertGroup, List.mem_append, or_assoc, or_comm, or_left_comm]
    · simp only [insertGroup, if_neg h, List.flatMap_cons, List.mem_append, ih]
      tauto

theorem groupBySymbol_syminv (l : List (Key × Plan)) :
    ∀ g ∈ groupBySymbol l, ∀ q ∈ g.2, q.symbol = g.1 := by
  unfold groupBySymbol
  suffices h : ∀ (l2 : List (Key × Plan)) (acc : List (String × List Plan)),
      (∀ g ∈ acc, ∀ q ∈ g.2, q.symbol = g.1) →
      ∀ g ∈ l2.foldl (fun acc kp => insertGroup acc kp.2.symbol kp.2) acc,
        ∀ q ∈ g.2, q.symbol = g.1 by
    exact h l [] (by simp)
  intro l2
  induction l2 with
  | nil => intro acc hacc; simpa using hacc
  | cons kp rest ih =>
    intro acc hacc
    simp only [List.foldl_cons]
    exact ih _ (insertGroup_syminv hacc rfl)

theorem groupBySymbol_keys_nodup (l : List (Key × Plan)) :
    ((groupBySymbol l).map Prod.fst).Nodup := by
  unfold groupBySymbol
  suffices h : ∀ (l2 : List (Key × Plan)) (acc : List (String × List Plan)),
      (acc.map Prod.fst).Nodup →
      (((l2.foldl (fun acc kp => insertGroup acc kp.2.symbol kp.2) acc)).map Prod.fst).Nodup by
    exact h l [] (by simp)
  intro l2
  induction l2 with
  | nil => intro acc hacc; simpa using hacc
  | cons kp rest ih =>
    intro acc hacc
    simp only [List.foldl_cons]
    apply ih
    rw [insertGroup_symbols]
    split_ifs with h
    · exact hacc
    · simp only [List.nodup_append, List.nodup_singleton]
      exact ⟨hacc, by simp, by simpa using h⟩

theorem groupBySymbol_flatten_countP (l : List (Key × Plan)) (pred : Plan → Bool) :
    ((groupBySymbol l).flatMap Prod.snd).countP pred = (l.map Prod.snd).countP pred := by
  unfold groupBySymbol
  suffices h : ∀ (l2 : List (Key × Plan)) (acc : List (String × List Plan)),
      (((l2.foldl (fun acc kp => insertGroup acc kp.2.symbol kp.2) acc)).flatMap
          Prod.snd).countP pred =
        (acc.flatMap Prod.snd).countP pred + (l2.map Prod.snd).countP pred by
    simpa using h l []
  intro l2
  induction l2 with
  | nil => intro acc; simp
  | cons kp rest ih =>
    intro acc
    simp only [List.foldl_cons, List.map_cons, List.countP_cons]
    rw [ih, insertGroup_flatten_countP]
    omega

theorem groupBySymbol_flatten_mem (l : List (Key × Plan)) (q : Plan) :
    q ∈ (groupBySymbol l).flatMap Prod.snd ↔ ∃ k, (k, q) ∈ l := by
  unfold groupBySymbol
  suffices h : ∀ (l2 : List (Key × Plan)) (acc : List (String × List Plan)),
      (q ∈ ((l2.foldl (fun acc kp => insertGroup acc kp.2.symbol kp.2) acc)).flatMap
          Prod.snd ↔
        q ∈ acc.flatMap Prod.snd ∨ ∃ k, (k, q) ∈ l2) by
    simpa using h l []
  intro l2
  induction l2 with
  | nil => intro acc; simp
  | cons kp rest ih =>
    intro acc
    simp only [List.foldl_cons]
    rw [ih, insertGroup_flatten_mem]
    constructor
    · rintro ((hm | he) | ⟨k, hk⟩)
      · exact Or.inl hm
      · exact Or.inr ⟨kp.1, by rw [he]; simp⟩
      · exact Or.inr ⟨k, by simp [hk]⟩
    · rintro (hm | ⟨k, hk⟩)
      · exact Or.inl (Or.inl hm)
      · rcases List.mem_cons.mp hk with hk | hk
        · exact Or.inl (Or.inr (congrArg Prod.snd hk))
        · exact Or.inr ⟨k, hk⟩

/-- Every alert entry's plan appears in the group of its own symbol. -/
theorem groupBySymbol_mem_group {l : List (Key × Plan)} {k : Key} {p : Plan}
    (h : (k, p) ∈ l) :
    ∃ ps, (p.symbol, ps) ∈ groupBySymbol l ∧ p ∈ ps := by
  have hf : p ∈ (groupBySymbol l).flatMap Prod.snd :=
    (groupBySymbol_flatten_mem l p).mpr ⟨k, h⟩
  rcases List.mem_flatMap.mp hf with ⟨⟨s, ps⟩, hg, hp⟩
  have hs : p.symbol = s := groupBySymbol_syminv l (s, ps) hg p hp
  exact ⟨ps, by rw [hs]; exact hg, hp⟩

theorem insertGroup_nonempty {acc : List (String × List Plan)} {s : String} {p : Plan}
    (hacc : ∀ g ∈ acc, g.2 ≠ []) :
    ∀ g ∈ insertGroup acc s p, g.2 ≠ [] := by
  induction acc with
  | nil =>
    intro g hg
    simp only [insertGroup, List.mem_singleton] at hg
    subst hg
    simp
  | cons g0 rest ih =>
    obtain ⟨s0, ps⟩ := g0
    intro g hg
    by_cases h : s0 = s
    · subst h
      simp only [insertGroup, if_pos rfl] at hg
      cases hg with
      | head => simp
      | tail _ h1 => exact hacc g (List.mem_cons_of_mem _ h1)
    · simp only [insertGroup, if_neg h] at hg
      cases hg with
      | head => exact hacc (s0, ps) (by simp)
      | tail _ h1 => exact ih (fun g2 hg2 => hacc g2 (List.mem_cons_of_mem _ hg2)) g h1

theorem groupBySymbol_groups_nonempty (l : List (Key × Plan)) :
    ∀ g ∈ groupBySymbol l, g.2 ≠ [] := by
  unfold groupBySymbol
  suffices h : ∀ (l2 : List (Key × Plan)) (acc : List (String × List Plan)),
      (∀ g ∈ acc, g.2 ≠ []) →
      ∀ g ∈ l2.foldl (fun acc kp => insertGroup acc kp.2.symbol kp.2) acc, g.2 ≠ [] by
    exact h l [] (by simp)
  intro l2
  induction l2 with
  | nil => intro acc hacc; simpa using hacc
  | cons kp rest ih =>
    intro acc hacc
    simp only [List.foldl_cons]
    exact ih _ (insertGroup_nonempty hacc)

theorem groupBySymbol_keys_mem (l : List (Key × Plan)) (S : String) :
    S ∈ (groupBySymbol l).map Prod.fst ↔ ∃ kp ∈ l, kp.2.symbol = S := by
  constructor
  · intro h
    rcases List.mem_map.mp h with ⟨⟨s, ps⟩, hg, hs⟩
    have hs2 : s = S := hs
    subst hs2
    have hne : ps ≠ [] := groupBySymbol_groups_nonempty l (s, ps) hg
    rcases List.exists_mem_of_ne_nil ps hne with ⟨q, hq⟩
    have hqs : q.symbol = s := groupBySymbol_syminv l (s, ps) hg q hq
    have hqf : q ∈ (groupBySymbol l).flatMap Prod.snd :=
      List.mem_flatMap.mpr ⟨(s, ps), hg, hq⟩
    rcases (groupBySymbol_flatten_mem l q).mp hqf with ⟨k, hk⟩
    exact ⟨(k, q), hk, hqs⟩
  · rintro ⟨⟨k, p⟩, hkp, hs⟩
    rcases groupBySymbol_mem_group hkp with ⟨ps, hg, -⟩
    rw [← hs]
    exact List.mem_map.mpr ⟨(p.symbol, ps), hg, rfl⟩

-- ── Shared machinery: alert-registry effects of a price tick ─────────────────

theorem removeAlert_alerts_subset {st : TradeState} {s u : String} {x : Key × Plan}
    (h : x ∈ (removeAlert st s u).1.alerts) : x ∈ st.alerts := by
  unfold removeAlert pruneHistory at h
  dsimp only at h
  split_ifs at h <;> first
    | exact h
    | exact (List.mem_filter.mp h).1

theorem removeAlert_key_absent (st : TradeState) (s u : String) :
    ∀ p2, ((jsToUpper s, u), p2) ∉ (removeAlert st s u).1.alerts := by
  intro p2 hc
  unfold removeAlert pruneHistory at hc
  dsimp only at hc
  split_ifs at hc with h1 h2
  · have h3 := (List.mem_filter.mp hc).2
    simp at h3
  · have h3 := (List.mem_filter.mp hc).2
    simp at h3
  · have h1f : hasKV ((jsToUpper s, u) : Key) st.alerts = false :=
      Bool.not_eq_true _ ▸ h1
    have h3 : List.find? (fun kp => decide (kp.1 = ((jsToUpper s, u) : Key)))
        st.alerts = none := by
      unfold hasKV getKV at h1f
      rcases hf : List.find? (fun kp => decide (kp.1 = ((jsToUpper s, u) : Key)))
          st.alerts with _ | v
      · exact hf
      · rw [hf] at h1f
        simp at h1f
    have h4 := List.find?_eq_none.mp h3 _ hc
    simp at h4

theorem fireAlert_alerts_subset {env : Env} {st : TradeState} {p : Plan} {pr : ℚ}
    {x : Key × Plan} (h : x ∈ (fireAlert env st p pr).1.alerts) : x ∈ st.alerts :=
  removeAlert_alerts_subset h

theorem processPlans_alerts_subset {env : Env} {price : ℚ} {plans : List Plan}
    {st : TradeState} {x : Key × Plan}
    (h : x ∈ (processPlans env price st plans).1.alerts) : x ∈ st.alerts := by
  induction plans generalizing st with
  | nil => exact h
  | cons p ps ih =>
    simp only [processPlans] at h
    split_ifs at h with hz
    · exact fireAlert_alerts_subset (ih h)
    · exact ih h

theorem processPlans_removes {env : Env} {price : ℚ} {plans : List Plan} {p : Plan}
    (hp : p ∈ plans) (hup : jsToUpper p.symbol = p.symbol) (hz : inZone p price) :
    ∀ (st : TradeState) p2,
      ((p.symbol, p.userId), p2) ∉ (processPlans env price st plans).1.alerts := by
  induction plans with
  | nil => cases hp
  | cons q ps ih =>
    intro st p2 hc
    rcases List.mem_cons.mp hp with hpq | hps
    · subst hpq
      simp only [processPlans, if_pos hz] at hc
      have hin : ((p.symbol, p.userId), p2) ∈ (fireAlert env st p price).1.alerts :=
        processPlans_alerts_subset hc
      unfold fireAlert at hin
      have habs := removeAlert_key_absent st p.symbol p.userId p2
      rw [hup] at habs
      exact habs hin
    · simp only [processPlans] at hc
      split_ifs at hc with hzq
      · exact ih hps _ p2 hc
      · exact ih hps st p2 hc

theorem processSymbol_alerts_subset {env : Env} {st : TradeState} {s : String}
    {ps : List Plan} {x : Key × Plan}
    (h : x ∈ (processSymbol env st s ps).1.alerts) : x ∈ st.alerts := by
  unfold processSymbol at h
  cases hq : env.quotes s with
  | none => rw [hq] at h; exact h
  | some price =>
    rw [hq] at h
    dsimp only at h
    have h2 := processPlans_alerts_subset h
    exact h2

theorem processSymbol_removes {env : Env} {st : TradeState} {s : String}
    {ps : List Plan} {p : Plan} {price : ℚ}
    (hq : env.quotes s = some price) (hp : p ∈ ps)
    (hup : jsToUpper p.symbol = p.symbol) (hz : inZone p price) :
    ∀ p2, ((p.symbol, p.userId), p2) ∉ (processSymbol env st s ps).1.alerts := by
  intro p2 hc
  unfold processSymbol at hc
  rw [hq] at hc
  dsimp only at hc
  exact processPlans_removes hp hup hz _ p2 hc

theorem processGroups_alerts_subset {env : Env} {groups : List (String × List Plan)}
    {st : TradeState} {x : Key × Plan}
    (h : x ∈ (processGroups env st groups).1.alerts) : x ∈ st.alerts := by
  induction groups generalizing st with
  | nil => exact h
  | cons g rest ih =>
    obtain ⟨s, ps⟩ := g
    simp only [processGroups] at h
    exact processSymbol_alerts_subset (ih h)

theorem processGroups_removes {env : Env} {groups : List (String × List Plan)}
    {p : Plan} {ps : List Plan} {price : ℚ}
    (hg : (p.symbol, ps) ∈ groups) (hp : p ∈ ps)
    (hq : env.quotes p.symbol = some price)
    (hup : jsToUpper p.symbol = p.symbol) (hz : inZone p price) :
    ∀ (st : TradeState) p2,
      ((p.symbol, p.userId), p2) ∉ (processGroups env st groups).1.alerts := by
  induction groups with
  | nil => cases hg
  | cons g rest ih =>
    intro st p2 hc
    rcases List.mem_cons.mp hg with hg1 | hg1
    · simp only [processGroups] at hc
      have hin : ((p.symbol, p.userId), p2) ∈
          (processSymbol env st g.1 g.2).1.alerts :=
        processGroups_alerts_subset hc
      rw [← hg1] at hin
      exact processSymbol_removes hq hp hup hz p2 hin
    · simp only [processGroups] at hc
      exact ih hg1 _ p2 hc

theorem checkPrices_alerts_subset {env : Env} {st : TradeState} {x : Key × Plan}
    (h : x ∈ (checkPrices env st).1.alerts) : x ∈ st.alerts := by
  unfold checkPrices at h
  split_ifs at h
  · exact h
  · exact processGroups_alerts_subset h

/-- A plan whose symbol got a quote in its buy zone this tick is removed from
the registry by the end of the tick: no plan is left under its key. -/
theorem checkPrices_fired_removed {env : Env} {st : TradeState} {k : Key} {p : Plan}
    {price : ℚ} (hwk : AlertsWellKeyed st.alerts) (hmem : (k, p) ∈ st.alerts)
    (hq : env.quotes p.symbol = some price) (hz : inZone p price) :
    ∀ p2, (k, p2) ∉ (checkPrices env st).1.alerts := by
  obtain ⟨hk, hup⟩ := hwk (k, p) hmem
  have hk2 : k = (p.symbol, p.userId) := hk
  rcases groupBySymbol_mem_group hmem with ⟨ps, hg, hp⟩
  have hne : st.alerts.isEmpty = false := by
    rcases hl : st.alerts with _ | _
    · rw [hl] at hmem; cases hmem
    · rfl
  intro p2 hc
  unfold checkPrices at hc
  rw [hne] at hc
  simp only [Bool.false_eq_true, if_false] at hc
  rw [hk2] at hc
  exact processGroups_removes hg hp hq hup hz st p2 hc

-- ── Shared machinery: counting buy-alert notifications ───────────────────────

/-- Recognise a buy-alert notification for a given user and symbol. -/
def isBuyAlertFor (u S : String) : Ev → Bool
  | Ev.buyAlertSent u2 S2 _ _ => decide (u2 = u) && decide (S2 = S)
  | _ => false

/-- A plan addressed to the given user and symbol. -/
def matchUP (u S : String) (p : Plan) : Bool :=
  decide (p.userId = u) && decide (p.symbol = S)

theorem countP_flatMap {β γ : Type} (l : List β) (f : β → List γ) (pred : γ → Bool) :
    ((l.flatMap f).countP pred) = (l.map (fun x => (f x).countP pred)).sum := by
  induction l with
  | nil => rfl
  | cons x rest ih => simp [List.countP_append, ih]

theorem sum_map_ite_eq_countP {β : Type} (l : List β) (pred : β → Bool) :
    (l.map (fun x => if pred x then 1 else 0)).sum = l.countP pred := by
  induction l with
  | nil => rfl
  | cons x rest ih =>
    simp only [List.map_cons, List.sum_cons, List.countP_cons, ih]
    split_ifs <;> omega

theorem buyAlert_mem_fireEvents {env : Env} {send : Bool} {p : Plan} {price : ℚ}
    {u S : String} {ev : Ev} (hev : ev ∈ fireEvents env send p price)
    (hq : isBuyAlertFor u S ev = true) : p.userId = u ∧ p.symbol = S := by
  unfold fireEvents at hev
  rcases List.mem_append.mp hev with hev1 | hev1
  · rcases List.mem_append.mp hev1 with hev2 | hev2
    · rw [List.mem_singleton.mp hev2] at hq
      simp [isBuyAlertFor] at hq
    · split_ifs at hev2
      · cases hev2
      · rw [List.mem_singleton.mp hev2] at hq
        simp [isBuyAlertFor] at hq
  · split_ifs at hev1 with hs
    · rw [List.mem_singleton.mp hev1] at hq
      simp only [isBuyAlertFor, Bool.and_eq_true, decide_eq_true_eq] at hq
      exact hq
    · cases hev1

theorem countP_buyAlert_eventsOfPlan_le (env : Env) (send : Bool) (price : ℚ)
    (p2 : Plan) (u S : String) :
    (eventsOfPlan env send price p2).countP (isBuyAlertFor u S) ≤
      if matchUP u S p2 then 1 else 0 := by
  unfold eventsOfPlan fireEvents matchUP
  split_ifs with hz h1 h1 <;>
    simp_all [List.countP_append, List.countP_cons, isBuyAlertFor]

theorem countP_buyAlert_symbolEvents_le (env : Env) (send : Bool) (s0 : String)
    (ps : List Plan) (u S : String) :
    (symbolEvents env send s0 ps).countP (isBuyAlertFor u S) ≤
      ps.countP (matchUP u S) := by
  unfold symbolEvents
  cases env.quotes s0 with
  | none => simp [List.countP_cons, isBuyAlertFor]
  | some price =>
    dsimp only
    rw [List.countP_append, countP_flatMap]
    have h1 : (List.countP (isBuyAlertFor u S)
        [Ev.fetch s0, Ev.recordObs s0 price]) = 0 := by
      simp [List.countP_cons, isBuyAlertFor]
    rw [h1]
    have h2 : (ps.map (fun x => (eventsOfPlan env send price x).countP
        (isBuyAlertFor u S))).sum ≤
        (ps.map (fun x => if matchUP u S x then 1 else 0)).sum := by
      apply List.sum_le_sum
      intro x hx
      exact countP_buyAlert_eventsOfPlan_le env send price x u S
    rw [sum_map_ite_eq_countP] at h2
    omega

theorem countP_matchUP_le_one {l : List (Key × Plan)}
    (hkeys : NodupKeys l) (hwk : AlertsWellKeyed l) (u S : String) :
    (l.map Prod.snd).countP (matchUP u S) ≤ 1 := by
  induction l with
  | nil => simp
  | cons kp rest ih =>
    obtain ⟨k0, p0⟩ := kp
    simp only [List.map_cons, List.countP_cons]
    by_cases hm : matchUP u S p0
    · have hk0 : k0 = (S, u) := by
        have h1 : k0 = (p0.symbol, p0.userId) := (hwk (k0, p0) (by simp)).1
        unfold matchUP at hm
        simp only [Bool.and_eq_true, decide_eq_true_eq] at hm
        rw [h1, hm.1, hm.2]
      have hzero : rest.countP (fun kp2 => matchUP u S kp2.2) = 0 := by
        apply List.countP_eq_zero.mpr
        intro kp2 hkp2 hc
        have h1 : kp2.1 = (kp2.2.symbol, kp2.2.userId) := (hwk kp2 (by simp [hkp2])).1
        unfold matchUP at hc
        simp only [Bool.and_eq_true, decide_eq_true_eq] at hc
        have hk2 : kp2.1 = (S, u) := by rw [h1, hc.1, hc.2]
        unfold NodupKeys at hkeys
        rw [List.map_cons, List.nodup_cons] at hkeys
        exact hkeys.1 (by
          rw [hk0]
          rw [← hk2]
          exact List.mem_map.mpr ⟨kp2, hkp2, rfl⟩)
      have hrw : rest.countP (fun kp2 => matchUP u S kp2.2) =
          (rest.map Prod.snd).countP (matchUP u S) := by
        rw [List.countP_map]
        rfl
      rw [hm, ← hrw, hzero]
      simp
    · have hih := ih (by
        unfold NodupKeys at hkeys ⊢
        rw [List.map_cons, List.nodup_cons] at hkeys
        exact hkeys.2) (fun kp2 hkp2 => hwk kp2 (by simp [hkp2]))
      simp only [Bool.false_eq_true, if_false, hm]
      omega

/-- A buy-alert notification in a tick's trace originates from a plan that
was registered for that user and symbol at the start of the tick. -/
theorem buyAlert_origin {env : Env} {st2 : TradeState} {u S : String} {q2 : ℤ}
    {pr2 : ℚ} (h : Ev.buyAlertSent u S q2 pr2 ∈ (checkPrices env st2).2) :
    ∃ k2 p2, (k2, p2) ∈ st2.alerts ∧ p2.userId = u ∧ p2.symbol = S := by
  rw [checkPrices_events] at h
  rcases List.mem_flatMap.mp h with ⟨⟨s0, ps0⟩, hg, hev⟩
  unfold symbolEvents at hev
  cases hq : env.quotes s0 with
  | none =>
    rw [hq] at hev
    simp at hev
  | some price =>
    rw [hq] at hev
    dsimp only at hev
    rcases List.mem_append.mp hev with hev1 | hev1
    · simp at hev1
    · rcases List.mem_flatMap.mp hev1 with ⟨p2, hp2, hev2⟩
      unfold eventsOfPlan at hev2
      split_ifs at hev2 with hz
      · obtain ⟨husr, hsym⟩ := buyAlert_mem_fireEvents (u := u) (S := S) hev2
          (by simp [isBuyAlertFor])
        have hfl : p2 ∈ (groupBySymbol st2.alerts).flatMap Prod.snd :=
          List.mem_flatMap.mpr ⟨(s0, ps0), hg, hp2⟩
        rcases (groupBySymbol_flatten_mem st2.alerts p2).mp hfl with ⟨k2, hk2⟩
        exact ⟨k2, p2, hk2, husr, hsym⟩
      · cases hev2

theorem beforeIn_eventsOfPlan (env : Env) (send : Bool) (price : ℚ) (p2 : Plan)
    (u S : String) (hupS : jsToUpper S = S) :
    beforeIn (eventsOfPlan env send price p2)
      (fun e => decide (e = Ev.alertRemoved (S, u))) (isBuyAlertFor u S) := by
  unfold eventsOfPlan
  split_ifs with hz
  · by_cases hany : (fireEvents env send p2 price).any (isBuyAlertFor u S) = true
    · rcases List.any_eq_true.mp hany with ⟨ev, hev, hqev⟩
      obtain ⟨hu2, hs2⟩ := buyAlert_mem_fireEvents hev hqev
      have hkey : Ev.alertRemoved (jsToUpper p2.symbol, p2.userId) =
          Ev.alertRemoved (S, u) := by
        rw [hs2, hupS, hu2]
      unfold fireEvents
      apply beforeIn_head
      rw [hkey]
      simp
    · exact beforeIn_of_not_any (Bool.not_eq_true _ ▸ hany)
  · intro n hn
    simp at hn

/-- C2: a plan whose symbol trades inside its buy zone on a tick fires at
most once: its buy-alert notification occurs at most once in the tick's
trace, the registry removal event precedes every such notification, by the
end of the tick the plan's key is gone from the registry, and a subsequent
tick can never emit a buy alert for that (user, symbol) again. -/
theorem C2_theorem (env : Env) (st : TradeState)
    (hkeys : NodupKeys st.alerts) (hwk : AlertsWellKeyed st.alerts)
    (k : Key) (p : Plan) (hmem : (k, p) ∈ st.alerts)
    (price : ℚ) (hq : env.quotes p.symbol = some price) (hz : inZone p price) :
    ((checkPrices env st).2.countP (isBuyAlertFor p.userId p.symbol) ≤ 1) ∧
    beforeIn (checkPrices env st).2
      (fun e => decide (e = Ev.alertRemoved k)) (isBuyAlertFor p.userId p.symbol) ∧
    (∀ p2, (k, p2) ∉ (checkPrices env st).1.alerts) ∧
    (∀ env2 q2 pr2,
      Ev.buyAlertSent p.userId p.symbol q2 pr2 ∉
        (checkPrices env2 (checkPrices env st).1).2) := by
  obtain ⟨hk, hup⟩ := hwk (k, p) hmem
  have hk2 : k = (p.symbol, p.userId) := hk
  refine ⟨?_, ?_, ?_, ?_⟩
  · rw [checkPrices_events, countP_flatMap]
    have h2 : ((groupBySymbol st.alerts).map (fun g =>
        (symbolEvents env st.hasSendFn g.1 g.2).countP
          (isBuyAlertFor p.userId p.symbol))).sum ≤
        ((groupBySymbol st.alerts).map (fun g =>
          g.2.countP (matchUP p.userId p.symbol))).sum := by
      apply List.sum_le_sum
      intro g hg
      exact countP_buyAlert_symbolEvents_le env st.hasSendFn g.1 g.2 p.userId p.symbol
    have h3 : ((groupBySymbol st.alerts).map (fun g =>
        g.2.countP (matchUP p.userId p.symbol))).sum =
        (st.alerts.map Prod.snd).countP (matchUP p.userId p.symbol) := by
      rw [← groupBySymbol_flatten_countP st.alerts (matchUP p.userId p.symbol),
        countP_flatMap]
    have h4 := countP_matchUP_le_one hkeys hwk p.userId p.symbol
    omega
  · rw [checkPrices_events, hk2]
    apply beforeIn_flatMap
    intro g hg
    unfold symbolEvents
    cases hqg : env.quotes g.1 with
    | none =>
      apply beforeIn_of_not_any
      simp [isBuyAlertFor]
    | some pr =>
      apply beforeIn_append
      · apply beforeIn_of_not_any
        simp [isBuyAlertFor]
      · apply beforeIn_flatMap
        intro p2 hp2
        exact beforeIn_eventsOfPlan env st.hasSendFn pr p2 p.userId p.symbol hup
  · exact checkPrices_fired_removed hwk hmem hq hz
  · intro env2 q2 pr2 hc
    rcases buyAlert_origin hc with ⟨k2, p2, hk2mem, husr, hsym⟩
    have hstmem : (k2, p2) ∈ st.alerts := checkPrices_alerts_subset hk2mem
    have hk2eq : k2 = k := by
      have h1 : k2 = (p2.symbol, p2.userId) := (hwk (k2, p2) hstmem).1
      rw [h1, hsym, husr, hk2]
    exact checkPrices_fired_removed hwk hmem hq hz p2 (hk2eq ▸ hk2mem)

/-- Scenario A plan: AAPL, buy zone 170–172, TP 185, SL 165, budget 1000. -/
def planA : Plan :=
  { symbol := "AAPL", userId := "u1", buyLow := 170, buyHigh := 172
    takeProfit := 185, stopLoss := 165, budget := some 1000, fixedQty := none }

/-- State holding exactly the Scenario A plan. -/
def stA : TradeState :=
  { alerts := [(("AAPL", "u1"), planA)], pendingFills := [], priceHistory := []
    hasSendFn := true }

/-- Environment quoting AAPL at 171 (inside the zone). -/
def envA : Env :=
  { quotes := fun s => if s = "AAPL" then some 171 else none
    poll := fun _ _ => PollResult.got none
    exitOK := fun _ _ => true
    hasActiveTask := fun _ => false
    now := 60 }

theorem C2_witness :
    ((checkPrices envA stA).2.countP (isBuyAlertFor "u1" "AAPL") ≤ 1) ∧
    (∀ p2, (("AAPL", "u1"), p2) ∉ (checkPrices envA stA).1.alerts) := by
  have h := C2_theorem envA stA (by decide) (by decide) ("AAPL", "u1") planA
    (by decide) 171 rfl (by norm_num [inZone, planA])
  exact ⟨h.1, h.2.2.1⟩

-- ── Shared machinery: frame lemmas for a failed quote ────────────────────────

theorem getKV_setKV_ne {κ α : Type} [DecidableEq κ] {k k2 : κ} (h : k ≠ k2)
    (v : α) (l : List (κ × α)) : getKV k (setKV k2 v l) = getKV k l := by
  induction l with
  | nil =>
    simp only [setKV, getKV, List.find?]
    rw [decide_eq_false (fun hc : k2 = k => h hc.symm)]
  | cons kv rest ih =>
    obtain ⟨k0, v0⟩ := kv
    by_cases h0 : k0 = k2
    · subst h0
      simp only [setKV, if_pos rfl, getKV, List.find?]
      rw [decide_eq_false (fun hc : k0 = k => h hc.symm)]
    · simp only [setKV, if_neg h0, getKV, List.find?]
      by_cases hk0 : k0 = k
      · rw [decide_eq_true hk0]
      · rw [decide_eq_false hk0]
        exact ih

theorem getKV_delKV_ne {κ α : Type} [DecidableEq κ] {k k2 : κ} (h : k ≠ k2)
    (l : List (κ × α)) : getKV k (delKV k2 l) = getKV k l := by
  induction l with
  | nil => rfl
  | cons kv rest ih =>
    obtain ⟨k0, v0⟩ := kv
    by_cases h0 : k0 = k2
    · have hp : (decide ((k0, v0).1 ≠ k2) : Bool) = false := by
        simp [h0]
      have hk0 : (decide (k0 = k) : Bool) = false :=
        decide_eq_false (fun hc => h (h0 ▸ hc ▸ rfl))
      simp only [delKV] at ih ⊢
      rw [List.filter_cons, hp]
      simp only [Bool.false_eq_true, if_false]
      rw [ih]
      simp only [getKV, List.find?, hk0]
    · have hp : (decide ((k0, v0).1 ≠ k2) : Bool) = true := by
        simp [h0]
      simp only [delKV] at ih ⊢
      rw [List.filter_cons, hp]
      simp only [if_true]
      by_cases hk0 : k0 = k
      · simp only [getKV, List.find?, decide_eq_true hk0]
      · simp only [getKV, List.find?, decide_eq_false hk0]
        exact ih

theorem removeAlert_alerts_other {st : TradeState} {s u : String} {x : Key × Plan}
    (hx : x ∈ st.alerts) (hne : x.1 ≠ (jsToUpper s, u)) :
    x ∈ (removeAlert st s u).1.alerts := by
  unfold removeAlert pruneHistory
  dsimp only
  split_ifs <;> first
    | exact hx
    | exact List.mem_filter.mpr ⟨hx, by simpa using hne⟩

theorem removeAlert_history_other {st : TradeState} {s u S : String}
    (hS : S ≠ jsToUpper s) :
    getKV S (removeAlert st s u).1.priceHistory = getKV S st.priceHistory := by
  unfold removeAlert pruneHistory
  dsimp only
  split_ifs <;> first
    | rfl
    | exact getKV_delKV_ne hS _

theorem recordPrice_history_other {st : TradeState} {s S : String} {pr : ℚ} {now : ℕ}
    (hS : S ≠ s) :
    getKV S (recordPrice st s pr now).priceHistory = getKV S st.priceHistory := by
  unfold recordPrice
  exact getKV_setKV_ne hS _ _

theorem processPlans_quoteFailed_frame {env : Env} {price : ℚ} {plans : List Plan}
    {S : String} (hplans : ∀ p2 ∈ plans, jsToUpper p2.symbol = p2.symbol ∧ p2.symbol ≠ S) :
    ∀ st : TradeState,
      (∀ x ∈ st.alerts, x.1.1 = S → x ∈ (processPlans env price st plans).1.alerts) ∧
      getKV S (processPlans env price st plans).1.priceHistory =
        getKV S st.priceHistory := by
  induction plans with
  | nil => intro st; exact ⟨fun x hx _ => hx, rfl⟩
  | cons q ps ih =>
    intro st
    obtain ⟨hq_up, hq_ne⟩ := hplans q (by simp)
    have hplans2 : ∀ p2 ∈ ps, jsToUpper p2.symbol = p2.symbol ∧ p2.symbol ≠ S :=
      fun p2 hp2 => hplans p2 (by simp [hp2])
    simp only [processPlans]
    split_ifs with hz
    · have hfire_alerts : ∀ x ∈ st.alerts, x.1.1 = S →
          x ∈ (fireAlert env st q price).1.alerts := by
        intro x hx hxS
        unfold fireAlert
        apply removeAlert_alerts_other hx
        intro hc
        rw [hc, hq_up] at hxS
        exact hq_ne hxS
      have hfire_hist : getKV S (fireAlert env st q price).1.priceHistory =
          getKV S st.priceHistory := by
        unfold fireAlert
        apply removeAlert_history_other
        rw [hq_up]
        exact fun hc => hq_ne hc.symm
      obtain ⟨ih_a, ih_h⟩ := ih hplans2 (fireAlert env st q price).1
      refine ⟨?_, ?_⟩
      · intro x hx hxS
        exact ih_a x (hfire_alerts x hx hxS) hxS
      · rw [ih_h, hfire_hist]
    · exact ih hplans2 st

theorem processSymbol_quoteFailed_frame {env : Env} {S s0 : String} {ps : List Plan}
    (hqS : env.quotes S = none)
    (hg : ∀ p2 ∈ ps, jsToUpper p2.symbol = p2.symbol ∧ p2.symbol = s0) :
    ∀ st : TradeState,
      (∀ x ∈ st.alerts, x.1.1 = S → x ∈ (processSymbol env st s0 ps).1.alerts) ∧
      getKV S (processSymbol env st s0 ps).1.priceHistory =
        getKV S st.priceHistory := by
  intro st
  unfold processSymbol
  cases hq0 : env.quotes s0 with
  | none => exact ⟨fun x hx _ => hx, rfl⟩
  | some pr =>
    dsimp only
    have hs0S : s0 ≠ S := by
      intro hc
      rw [hc, hqS] at hq0
      cases hq0
    have hplans : ∀ p2 ∈ ps, jsToUpper p2.symbol = p2.symbol ∧ p2.symbol ≠ S := by
      intro p2 hp2
      obtain ⟨h1, h2⟩ := hg p2 hp2
      exact ⟨h1, h2 ▸ hs0S⟩
    obtain ⟨hpa, hph⟩ := processPlans_quoteFailed_frame hplans (recordPrice st s0 pr env.now)
    refine ⟨?_, ?_⟩
    · intro x hx hxS
      exact hpa x hx hxS
    · rw [hph]
      exact recordPrice_history_other (fun hc => hs0S hc.symm)

theorem processGroups_quoteFailed_frame {env : Env} {groups : List (String × List Plan)}
    {S : String} (hqS : env.quotes S = none)
    (hgroups : ∀ g ∈ groups, ∀ p2 ∈ g.2,
      jsToUpper p2.symbol = p2.symbol ∧ p2.symbol = g.1) :
    ∀ st : TradeState,
      (∀ x ∈ st.alerts, x.1.1 = S → x ∈ (processGroups env st groups).1.alerts) ∧
      getKV S (processGroups env st groups).1.priceHistory =
        getKV S st.priceHistory := by
  induction groups with
  | nil => intro st; exact ⟨fun x hx _ => hx, rfl⟩
  | cons g rest ih =>
    intro st
    obtain ⟨s0, ps⟩ := g
    have hg1 : ∀ p2 ∈ ps, jsToUpper p2.symbol = p2.symbol ∧ p2.symbol = s0 :=
      fun p2 hp2 => hgroups (s0, ps) (by simp) p2 hp2
    have hrest : ∀ g2 ∈ rest, ∀ p2 ∈ g2.2,
        jsToUpper p2.symbol = p2.symbol ∧ p2.symbol = g2.1 :=
      fun g2 hg2 => hgroups g2 (by simp [hg2])
    obtain ⟨hsa, hsh⟩ := processSymbol_quoteFailed_frame hqS hg1 st
    obtain ⟨iha, ihh⟩ := ih hrest (processSymbol env st s0 ps).1
    simp only [processGroups]
    refine ⟨?_, ?_⟩
    · intro x hx hxS
      exact iha x (hsa x hx hxS) hxS
    · rw [ihh, hsh]

-- ── Shared machinery: counting quote fetches ─────────────────────────────────

theorem fetch_not_mem_eventsOfPlan {env : Env} {send : Bool} {price : ℚ}
    {p2 : Plan} {S : String} : Ev.fetch S ∉ eventsOfPlan env send price p2 := by
  unfold eventsOfPlan fireEvents
  split_ifs <;> simp

theorem countP_fetch_symbolEvents (env : Env) (send : Bool) (s0 : String)
    (ps : List Plan) (S : String) :
    (symbolEvents env send s0 ps).countP (fun e => decide (e = Ev.fetch S)) =
      if s0 = S then 1 else 0 := by
  unfold symbolEvents
  cases env.quotes s0 with
  | none =>
    by_cases h : s0 = S <;> simp [List.countP_cons, h]
  | some pr =>
    dsimp only
    rw [List.countP_append]
    have h0 : (ps.flatMap (eventsOfPlan env send pr)).countP
        (fun e => decide (e = Ev.fetch S)) = 0 := by
      apply List.countP_eq_zero.mpr
      intro ev hev hc
      rcases List.mem_flatMap.mp hev with ⟨p2, -, hev2⟩
      rw [of_decide_eq_true hc] at hev2
      exact fetch_not_mem_eventsOfPlan hev2
    rw [h0]
    by_cases h : s0 = S <;> simp [List.countP_cons, h]

theorem countP_eq_key_nodup (l : List String) (hn : l.Nodup) (S : String) :
    l.countP (fun x => decide (x = S)) = if S ∈ l then 1 else 0 := by
  induction l with
  | nil => simp
  | cons x rest ih =>
    rw [List.nodup_cons] at hn
    by_cases h : x = S
    · subst h
      have h0 : rest.countP (fun y => decide (y = x)) = 0 := by
        apply List.countP_eq_zero.mpr
        intro y hy hc
        exact hn.1 (of_decide_eq_true hc ▸ hy)
      simp [List.countP_cons, h0]
    · have hSx : ¬(S = x) := fun hc => h hc.symm
      simp only [List.countP_cons, decide_eq_false h, Bool.false_eq_true, if_false,
        Nat.add_zero, ih hn.2, List.mem_cons]
      by_cases h2 : S ∈ rest
      · rw [if_pos h2, if_pos (Or.inr h2)]
      · rw [if_neg h2, if_neg (by rintro (hc | hc); exact hSx hc; exact h2 hc)]

-- ── C5: the fetched-symbol set of a tick ─────────────────────────────────────

/-- Plan for another symbol used by the C5 counterexample (zone away from the
quoted price so nothing fires). -/
def planMSFT : Plan :=
  { symbol := "MSFT", userId := "u1", buyLow := 170, buyHigh := 172
    takeProfit := 185, stopLoss := 165, budget := some 1000, fixedQty := none }

/-- State with one MSFT watch plan and one AAPL pending fill. -/
def stC5 : TradeState :=
  { alerts := [(("MSFT", "u1"), planMSFT)]
    pendingFills := [(("AAPL", "u1"), fillC1)]
    priceHistory := []
    hasSendFn := true }

/-- Environment where every quote fetch succeeds at price 100. -/
def envC5 : Env :=
  { quotes := fun _ => some 100
    poll := fun _ _ => PollResult.got none
    exitOK := fun _ _ => true
    hasActiveTask := fun _ => false
    now := 0 }

/-- C5 counterexample: an AAPL pending fill exists and every fetch would
succeed, yet the price tick fetches only the WatchPlan symbol MSFT — the
pending-fill symbol AAPL is never fetched, so the fetched set is not the
union the claim describes. -/
theorem C5_counterexample :
    (("AAPL", "u1"), fillC1) ∈ stC5.pendingFills ∧
    Ev.fetch "MSFT" ∈ (checkPrices envC5 stC5).2 ∧
    Ev.fetch "AAPL" ∉ (checkPrices envC5 stC5).2 := by
  refine ⟨by decide, ?_, ?_⟩
  · norm_num [checkPrices, stC5, envC5, planMSFT, groupBySymbol, insertGroup,
      processGroups, processSymbol, processPlans, recordPrice, inZone,
      hasKV, getKV, setKV, HISTORY_MAX]
  · norm_num [checkPrices, stC5, envC5, planMSFT, groupBySymbol, insertGroup,
      processGroups, processSymbol, processPlans, recordPrice, inZone,
      hasKV, getKV, setKV, HISTORY_MAX]
    decide

/-- C5 as amended: on every tick the set of symbols fetched is exactly the
deduplicated set of WatchPlan symbols (pending-fill symbols are NOT included
unless some plan also watches them), with exactly one fetch per symbol; a
fetch failure for one symbol only logs a warning for it — that symbol's
processing step leaves the state untouched, every plan for the failing
symbol survives the tick, and the failing symbol's price history is
unchanged at the end of the tick. -/
theorem C5_theorem (env : Env) (st : TradeState) (hwk : AlertsWellKeyed st.alerts) :
    (∀ S, (checkPrices env st).2.countP (fun e => decide (e = Ev.fetch S)) =
      if st.alerts.any (fun kp => decide (kp.2.symbol = S)) then 1 else 0) ∧
    (∀ S ps, env.quotes S = none →
      processSymbol env st S ps = (st, [Ev.fetch S, Ev.warnLogged S])) ∧
    (∀ k p, (k, p) ∈ st.alerts → env.quotes p.symbol = none →
      (k, p) ∈ (checkPrices env st).1.alerts) ∧
    (∀ S, env.quotes S = none →
      getKV S (checkPrices env st).1.priceHistory = getKV S st.priceHistory) := by
  have hgroups : ∀ g ∈ groupBySymbol st.alerts, ∀ p2 ∈ g.2,
      jsToUpper p2.symbol = p2.symbol ∧ p2.symbol = g.1 := by
    intro g hg p2 hp2
    have hfl : p2 ∈ (groupBySymbol st.alerts).flatMap Prod.snd :=
      List.mem_flatMap.mpr ⟨g, hg, hp2⟩
    rcases (groupBySymbol_flatten_mem st.alerts p2).mp hfl with ⟨k2, hk2⟩
    exact ⟨(hwk (k2, p2) hk2).2, groupBySymbol_syminv st.alerts g hg p2 hp2⟩
  refine ⟨?_, ?_, ?_, ?_⟩
  · intro S
    rw [checkPrices_events, countP_flatMap]
    have h1 : ((groupBySymbol st.alerts).map (fun g =>
        (symbolEvents env st.hasSendFn g.1 g.2).countP
          (fun e => decide (e = Ev.fetch S)))).sum =
        ((groupBySymbol st.alerts).map (fun g => if g.1 = S then 1 else 0)).sum := by
      apply congrArg
      apply List.map_congr_left
      intro g hg
      exact countP_fetch_symbolEvents env st.hasSendFn g.1 g.2 S
    rw [h1]
    have h2 : ((groupBySymbol st.alerts).map (fun g =>
        if (fun g2 : String × List Plan => decide (g2.1 = S)) g then 1 else 0)).sum =
        (groupBySymbol st.alerts).countP (fun g => decide (g.1 = S)) :=
      sum_map_ite_eq_countP (groupBySymbol st.alerts) (fun g => decide (g.1 = S))
    have h3 : ((groupBySymbol st.alerts).map (fun g => if g.1 = S then 1 else 0)).sum =
        ((groupBySymbol st.alerts).map (fun g =>
          if (fun g2 : String × List Plan => decide (g2.1 = S)) g then 1 else 0)).sum := by
      apply congrArg
      apply List.map_congr_left
      intro g hg
      by_cases h : g.1 = S <;> simp [h]
    rw [h3, h2]
    have h4 : (groupBySymbol st.alerts).countP (fun g => decide (g.1 = S)) =
        ((groupBySymbol st.alerts).map Prod.fst).countP (fun x => decide (x = S)) := by
      rw [List.countP_map]
      rfl
    rw [h4, countP_eq_key_nodup _ (groupBySymbol_keys_nodup st.alerts) S]
    have h5 : (S ∈ (groupBySymbol st.alerts).map Prod.fst) ↔
        (st.alerts.any (fun kp => decide (kp.2.symbol = S)) = true) := by
      rw [groupBySymbol_keys_mem, List.any_eq_true]
      constructor
      · rintro ⟨kp, hkp, hs⟩
        exact ⟨kp, hkp, decide_eq_true hs⟩
      · rintro ⟨kp, hkp, hs⟩
        exact ⟨kp, hkp, of_decide_eq_true hs⟩
    by_cases h6 : st.alerts.any (fun kp => decide (kp.2.symbol = S)) = true
    · rw [if_pos (h5.mpr h6), if_pos h6]
    · rw [if_neg (fun hc => h6 (h5.mp hc)), if_neg h6]
  · intro S ps hq
    unfold processSymbol
    rw [hq]
  · intro k p hmem hq
    unfold checkPrices
    split_ifs with he
    · exact hmem
    · obtain ⟨hpa, -⟩ := processGroups_quoteFailed_frame hq hgroups st
      have hk1 : (k, p).1.1 = p.symbol := by
        rw [(hwk (k, p) hmem).1]
      exact hpa (k, p) hmem hk1
  · intro S hq
    unfold checkPrices
    split_ifs with he
    · rfl
    · obtain ⟨-, hph⟩ := processGroups_quoteFailed_frame hq hgroups st
      exact hph

/-- Environment for the C5 witness: the MSFT fetch fails. -/
def envC5fail : Env :=
  { quotes := fun _ => none
    poll := fun _ _ => PollResult.got none
    exitOK := fun _ _ => true
    hasActiveTask := fun _ => false
    now := 0 }

theorem C5_witness :
    ((checkPrices envC5 stC5).2.countP (fun e => decide (e = Ev.fetch "AAPL")) = 0) ∧
    ((checkPrices envC5 stC5).2.countP (fun e => decide (e = Ev.fetch "MSFT")) = 1) ∧
    ((("MSFT", "u1"), planMSFT) ∈ (checkPrices envC5fail stC5).1.alerts) := by
  have h1 := (C5_theorem envC5 stC5 (by decide)).1 "AAPL"
  have h2 := (C5_theorem envC5 stC5 (by decide)).1 "MSFT"
  have h3 := (C5_theorem envC5fail stC5 (by decide)).2.2.1 ("MSFT", "u1") planMSFT
    (by decide) rfl
  refine ⟨?_, ?_, h3⟩
  · rw [h1]
    decide
  · rw [h2]
    decide

end TradeBot
